import Mathlib

/-!
# Diffie-Hellman solver: embedding of `dh-solver.cpp`

The program computes on `long long`.  Every function that does arithmetic is embedded
twice, on values in `Int`:

* in exact integer arithmetic (`mod_exp`, `diffie_hellman`, `find_closest_value`,
  `repair`, `read_params_from_file`, `main_case2`), for the statements made of the
  mathematics of the program;
* on 64-bit `long long`, where a product or a difference that leaves
  `[-2^63, 2^63 - 1]` wraps around mod `2^64` (`wrap64`): `mod_exp64`, `diffie_hellman64`,
  `find_closest_value64`, `repair64`, `read_params_from_file64`, `main_case2_64`.  This is
  what the compiled program computes.

The C++ operators `%` and `/` truncate towards zero, so they are `Int.tmod` and
`Int.tdiv`.  Operations whose behaviour is undefined in C++ and traps or reads stray
memory (remainder by zero, `LLONG_MIN % -1`, `candidates[0]` on an empty vector) return a
`Fault`.  The `while` loop of `mod_exp` runs on fuel; running out of fuel is a `Fault` of
its own, and `mod_exp_loop_fuel` and `run_loop_fuel` show that the fuel handed over is
always enough.  `mod_exp_run_loop` is the loop keeping a record of its run, with the
treatment of a product as a parameter.
-/

namespace DHSolver

/-- Ways in which a run of the program leaves defined behaviour (or the loop model
runs out of fuel). -/
inductive Fault where
  | outOfFuel
  | remByZero
  | remOverflow
  | outOfRange
  deriving DecidableEq, Repr

deriving instance DecidableEq for Except

/-- The largest `long long`, `2^63 - 1`. -/
def LLONG_MAX : Int := 9223372036854775807

/-- The smallest `long long`, `-2^63`. -/
def LLONG_MIN : Int := -9223372036854775808

/-- A mathematical integer as the 64-bit signed value it wraps around to (mod `2^64`). -/
def wrap64 (x : Int) : Int :=
  (x + 9223372036854775808) % 18446744073709551616 - 9223372036854775808

/-- Line 9: `COMMON_PRIMES`. -/
def COMMON_PRIMES : List Int := [23, 47, 97, 199, 307, 521]

/-- Line 10: `COMMON_GENERATORS`. -/
def COMMON_GENERATORS : List Int := [2, 3, 5, 7]

/-- The C++ expression `a % b` on `long long`: truncated remainder, undefined for `b == 0`
and for `LLONG_MIN % -1`, whose quotient is not a `long long`. -/
def rem (a b : Int) : Except Fault Int :=
  if b = 0 then .error .remByZero
  else if a = LLONG_MIN ∧ b = -1 then .error .remOverflow
  else .ok (a.tmod b)

/-- The C++ expression `candidates[0]`: undefined on an empty vector. -/
def first (candidates : List Int) : Except Fault Int :=
  match candidates with
  | [] => .error .outOfRange
  | c :: _ => .ok c

/-- The function `std::abs` in exact integer arithmetic (`std_abs64` on 64 bits). -/
def std_abs (x : Int) : Int := if x < 0 then -x else x

/-- Lines 15-20 in exact integer arithmetic: the `while (exp > 0)` loop of `mod_exp` on
the state `(result, base, exp)`, one iteration per unit of fuel.  The products do not
wrap; `mod_exp_run_loop wrap64` is the loop on 64-bit `long long`. -/
def mod_exp_loop (mod : Int) : Nat → Int → Int → Int → Except Fault Int
  | 0, result, _, exp => if exp > 0 then .error .outOfFuel else .ok result
  | fuel + 1, result, base, exp =>
    if exp > 0 then do
      let result ← if exp.tmod 2 = 1 then rem (result * base) mod else pure result
      let base ← rem (base * base) mod
      mod_exp_loop mod fuel result base (exp.tdiv 2)
    else .ok result

/-- Lines 13-22 in exact integer arithmetic: `mod_exp` (`mod_exp64` on 64 bits).  The
loop halves `exp`, so `exp.toNat` iterations suffice. -/
def mod_exp (base exp mod : Int) : Except Fault Int :=
  mod_exp_loop mod exp.toNat 1 base exp

/-- What `diffie_hellman` prints: the modulus and generator it computes with (after the
guard of lines 26-31), the two public keys and the two shared secrets. -/
structure Exchange where
  p : Int
  g : Int
  public_a : Int
  public_b : Int
  shared_key_a : Int
  shared_key_b : Int
  deriving DecidableEq, Repr

/-- Lines 26-31: the guard of `diffie_hellman`; returns the `(p, g)` used afterwards. -/
def fallback (p g : Int) : Except Fault (Int × Int) :=
  if p ≤ 1 ∨ g ≤ 0 then do
    let p ← first COMMON_PRIMES
    let g ← first COMMON_GENERATORS
    pure (p, g)
  else pure (p, g)

/-- Lines 25-45 in exact integer arithmetic: `diffie_hellman` (`diffie_hellman64` on
64 bits). -/
def diffie_hellman (p g private_a private_b : Int) : Except Fault Exchange := do
  let (p, g) ← fallback p g
  let public_a ← mod_exp g private_a p
  let public_b ← mod_exp g private_b p
  let shared_key_a ← mod_exp public_b private_a p
  let shared_key_b ← mod_exp public_a private_b p
  pure ⟨p, g, public_a, public_b, shared_key_a, shared_key_b⟩

/-- Lines 51-53 in exact integer arithmetic: the body of the range-for of
`find_closest_value` (`closer64` on 64 bits). -/
def closer (input closest candidate : Int) : Int :=
  if std_abs (candidate - input) < std_abs (closest - input) then candidate else closest

/-- Lines 48-56 in exact integer arithmetic: `find_closest_value`
(`find_closest_value64` on 64 bits).  The range-for is a left fold over the vector. -/
def find_closest_value (candidates : List Int) (input : Int) : Except Fault Int := do
  let closest ← first candidates
  pure (candidates.foldl (closer input) closest)

/-- Lines 59-77: `get_valid_or_guessed_input`.  `token` is what `std::cin >> value` yields:
`none` when the extraction fails, `some value` otherwise.  Every branch of the loop body
returns, so the loop runs once. -/
def get_valid_or_guessed_input (candidates : List Int) (token : Option Int) :
    Except Fault Int :=
  match token with
  | none => first candidates
  | some value =>
    if value ≤ 0 then find_closest_value candidates value
    else pure value

/-- The four in/out parameters of `read_params_from_file`. -/
structure Params where
  p : Int
  g : Int
  private_a : Int
  private_b : Int
  deriving DecidableEq, Repr

/-- Outcome of `infile >> p >> g >> private_a >> private_b` (line 87) on an open file:
either all four extractions succeed, or the stream fails and the variables hold
whatever the extractions left in them. -/
inductive Extraction where
  | read (values : Params)
  | failed (leftover : Params)
  deriving DecidableEq, Repr

/-- Lines 87-93: the values after the extraction and the recovery from a failed one. -/
def extracted (e : Extraction) : Except Fault Params :=
  match e with
  | .read values => pure values
  | .failed _ => do
    let p ← first COMMON_PRIMES
    let g ← first COMMON_GENERATORS
    pure ⟨p, g, 6, 15⟩

/-- Lines 95-101 in exact integer arithmetic: the repair block of
`read_params_from_file` (`repair64` on 64 bits). -/
def repair (v : Params) : Except Fault Params :=
  if v.p ≤ 1 ∨ v.g ≤ 0 ∨ v.private_a ≤ 0 ∨ v.private_b ≤ 0 then do
    let p ← find_closest_value COMMON_PRIMES v.p
    let g ← find_closest_value COMMON_GENERATORS v.g
    pure ⟨p, g, max 1 v.private_a, max 1 v.private_b⟩
  else pure v

/-- Lines 80-105: `read_params_from_file`.  `file` is `none` when the file cannot be
opened; `current` holds the caller's variables, which are left alone in that case. -/
def read_params_from_file (file : Option Extraction) (current : Params) :
    Except Fault (Bool × Params) :=
  match file with
  | none => pure (false, current)
  | some e => do
    let v ← extracted e
    let v ← repair v
    pure (true, v)

/-- Lines 132-138: `case 1` of `main`, on the four tokens typed by the user. -/
def main_case1 (tp tg ta tb : Option Int) : Except Fault Exchange := do
  let p ← get_valid_or_guessed_input COMMON_PRIMES tp
  let g ← get_valid_or_guessed_input COMMON_GENERATORS tg
  let private_a ← get_valid_or_guessed_input [] ta
  let private_b ← get_valid_or_guessed_input [] tb
  diffie_hellman p g private_a private_b

/-- Lines 140-148: `case 2` of `main`; `none` when no exchange is run. -/
def main_case2 (file : Option Extraction) (current : Params) :
    Except Fault (Option Exchange) := do
  let (ok, v) ← read_params_from_file file current
  if ok then do
    let r ← diffie_hellman v.p v.g v.private_a v.private_b
    pure (some r)
  else pure none

/-- The exact integer power `base ^ n`, by repeated multiplication. -/
def power (base : Int) : Nat → Int
  | 0 => 1
  | n + 1 => base * power base n

/-- The invariant `modulus > 1, generator > 0, private keys > 0` of the parameters. -/
def Params.valid (v : Params) : Prop :=
  1 < v.p ∧ 0 < v.g ∧ 0 < v.private_a ∧ 0 < v.private_b

instance (v : Params) : Decidable v.valid := by
  unfold Params.valid; infer_instance

/-- Record of one run of the loop of `mod_exp`: the value returned, how many times the
loop body ran, the mathematical values of the products `result * base` and `base * base`
in the order they were computed, and the values `% mod` made of them. -/
structure Run where
  result : Int
  iterations : Nat
  products : List Int
  reduced : List Int
  deriving DecidableEq, Repr

/-- Lines 15-20 again, keeping the record of the run.  `wrap` is what the machine does to
a product: nothing in exact arithmetic, `wrap64` on 64-bit `long long`. -/
def mod_exp_run_loop (wrap : Int → Int) (mod : Int) : Nat → Int → Int → Int → Except Fault Run
  | 0, result, _, exp => if exp > 0 then .error .outOfFuel else .ok ⟨result, 0, [], []⟩
  | fuel + 1, result, base, exp =>
    if exp > 0 then do
      let odd ← if exp.tmod 2 = 1 then do
          let r ← rem (wrap (result * base)) mod
          pure (r, [result * base], [r])
        else pure (result, [], [])
      let base2 ← rem (wrap (base * base)) mod
      let run ← mod_exp_run_loop wrap mod fuel odd.1 base2 (exp.tdiv 2)
      pure ⟨run.result, run.iterations + 1, odd.2.1 ++ base * base :: run.products,
        odd.2.2 ++ base2 :: run.reduced⟩
    else .ok ⟨result, 0, [], []⟩

/-- Lines 13-22 in exact arithmetic, with the record of the run. -/
def mod_exp_run (base exp mod : Int) : Except Fault Run :=
  mod_exp_run_loop id mod exp.toNat 1 base exp

/-- Lines 13-22 on 64-bit `long long` with wrap-around, with the record of the run. -/
def mod_exp64 (base exp mod : Int) : Except Fault Run :=
  mod_exp_run_loop wrap64 mod exp.toNat 1 base exp

/-- Lines 25-45 on 64-bit `long long`: `diffie_hellman` with `mod_exp64` for `mod_exp`.
The guard only compares, so it is `fallback` again. -/
def diffie_hellman64 (p g private_a private_b : Int) : Except Fault Exchange := do
  let (p, g) ← fallback p g
  let public_a ← mod_exp64 g private_a p
  let public_b ← mod_exp64 g private_b p
  let shared_key_a ← mod_exp64 public_b.result private_a p
  let shared_key_b ← mod_exp64 public_a.result private_b p
  pure ⟨p, g, public_a.result, public_b.result, shared_key_a.result, shared_key_b.result⟩

/-- The function `std::abs` on 64-bit `long long` with wrap-around: `-LLONG_MIN` wraps to
`LLONG_MIN`. -/
def std_abs64 (x : Int) : Int := wrap64 (if x < 0 then -x else x)

/-- Lines 51-53 on 64-bit `long long`: the differences `candidate - input` and
`closest - input` wrap around. -/
def closer64 (input closest candidate : Int) : Int :=
  if std_abs64 (wrap64 (candidate - input)) < std_abs64 (wrap64 (closest - input))
  then candidate else closest

/-- Lines 48-56 on 64-bit `long long`. -/
def find_closest_value64 (candidates : List Int) (input : Int) : Except Fault Int := do
  let closest ← first candidates
  pure (candidates.foldl (closer64 input) closest)

/-- Lines 95-101 on 64-bit `long long`. -/
def repair64 (v : Params) : Except Fault Params :=
  if v.p ≤ 1 ∨ v.g ≤ 0 ∨ v.private_a ≤ 0 ∨ v.private_b ≤ 0 then do
    let p ← find_closest_value64 COMMON_PRIMES v.p
    let g ← find_closest_value64 COMMON_GENERATORS v.g
    pure ⟨p, g, max 1 v.private_a, max 1 v.private_b⟩
  else pure v

/-- Lines 80-105 on 64-bit `long long`. -/
def read_params_from_file64 (file : Option Extraction) (current : Params) :
    Except Fault (Bool × Params) :=
  match file with
  | none => pure (false, current)
  | some e => do
    let v ← extracted e
    let v ← repair64 v
    pure (true, v)

/-- Lines 140-148 on 64-bit `long long`. -/
def main_case2_64 (file : Option Extraction) (current : Params) :
    Except Fault (Option Exchange) := do
  let (ok, v) ← read_params_from_file64 file current
  if ok then do
    let r ← diffie_hellman64 v.p v.g v.private_a v.private_b
    pure (some r)
  else pure none

/-- The nearest match in the words of the spec: `r` occurs in `candidates`, no candidate
is nearer to `input` than `r`, and every candidate before that occurrence of `r` is
strictly farther (first occurrence wins on ties). -/
def FirstNearest (candidates : List Int) (input r : Int) : Prop :=
  ∃ pre post, candidates = pre ++ r :: post ∧
    (∀ c ∈ candidates, |r - input| ≤ |c - input|) ∧
    (∀ c ∈ pre, |r - input| < |c - input|)

/-! ## Modular exponentiation -/

theorem rem_of_pos (a b : Int) (hb : 0 < b) : rem a b = .ok (a.tmod b) := by
  have h0 : b ≠ 0 := by omega
  have h1 : b ≠ -1 := by omega
  simp [rem, h0, h1]

theorem rem_ne_outOfFuel (a b : Int) : rem a b ≠ .error .outOfFuel := by
  unfold rem
  split_ifs <;> simp

theorem bind_ne_outOfFuel {α β : Type} (x : Except Fault α) (f : α → Except Fault β)
    (hx : x ≠ .error .outOfFuel) (hf : ∀ a, f a ≠ .error .outOfFuel) :
    (x >>= f) ≠ .error .outOfFuel := by
  cases x with
  | error e => simpa [bind, Except.bind] using hx
  | ok a => simpa [bind, Except.bind] using hf a

theorem rem_of_nonneg (a b : Int) (ha : 0 ≤ a) (hb : 0 < b) : rem a b = .ok (a % b) := by
  rw [rem_of_pos a b hb, Int.tmod_eq_emod ha (by omega)]

theorem mod_exp_loop_spec (m : Int) (hm : 0 < m) :
    ∀ (fuel : Nat) (r b e : Int), e.toNat ≤ fuel → 0 ≤ r → r < m → 0 ≤ b →
      mod_exp_loop m fuel r b e = .ok ((r * b ^ e.toNat) % m) := by
  intro fuel
  induction fuel with
  | zero =>
    intro r b e he hr hrm hb
    have he0 : ¬ e > 0 := by omega
    have : e.toNat = 0 := by omega
    simp [mod_exp_loop, he0, this, Int.emod_eq_of_lt hr hrm]
  | succ n ih =>
    intro r b e he hr hrm hb
    by_cases he0 : e > 0
    · have hk : 0 < e.toNat := by omega
      have hdiv : (e.tdiv 2).toNat = e.toNat / 2 := by
        rw [Int.tdiv_eq_ediv (by omega) (by omega)]; omega
      have hbb : 0 ≤ b * b := mul_nonneg hb hb
      have hb' : 0 ≤ (b * b) % m := Int.emod_nonneg _ (by omega)
      have hsq : (b * b) % m ≡ b ^ 2 [ZMOD m] := by
        rw [pow_two]; exact Int.mod_modEq _ _
      have hpow : ((b * b) % m) ^ (e.toNat / 2) ≡ b ^ (2 * (e.toNat / 2)) [ZMOD m] := by
        rw [pow_mul]; exact hsq.pow _
      by_cases hodd : e.tmod 2 = 1
      · have hk2 : e.toNat = 2 * (e.toNat / 2) + 1 := by
          rw [Int.tmod_eq_emod (by omega) (by omega)] at hodd; omega
        have hr' : 0 ≤ (r * b) % m := Int.emod_nonneg _ (by omega)
        have hrlt : (r * b) % m < m := Int.emod_lt_of_pos _ hm
        simp only [mod_exp_loop, he0, hodd, if_true, rem_of_nonneg _ _ (mul_nonneg hr hb) hm,
          rem_of_nonneg _ _ hbb hm, bind, Except.bind]
        rw [ih _ _ _ (by omega) hr' hrlt hb', hdiv]
        congr 1
        have h1 : (r * b) % m * ((b * b) % m) ^ (e.toNat / 2)
            ≡ (r * b) * b ^ (2 * (e.toNat / 2)) [ZMOD m] :=
          (Int.mod_modEq _ _).mul hpow
        have h2 : (r * b) * b ^ (2 * (e.toNat / 2)) = r * b ^ e.toNat := by
          conv_rhs => rw [hk2]
          ring
        rw [← h2]; exact h1
      · have hk2 : e.toNat = 2 * (e.toNat / 2) := by
          rw [Int.tmod_eq_emod (by omega) (by omega)] at hodd; omega
        simp only [mod_exp_loop, he0, hodd, if_true, if_false,
          rem_of_nonneg _ _ hbb hm, bind, Except.bind, pure, Except.pure]
        rw [ih _ _ _ (by omega) hr hrm hb', hdiv]
        congr 1
        have h1 : r * ((b * b) % m) ^ (e.toNat / 2)
            ≡ r * b ^ (2 * (e.toNat / 2)) [ZMOD m] :=
          (Int.ModEq.refl r).mul hpow
        rw [← hk2] at h1; exact h1
    · have : e.toNat = 0 := by omega
      simp [mod_exp_loop, he0, this, Int.emod_eq_of_lt hr hrm]


/-- The fuel `exp.toNat` is enough: the loop never stops for lack of fuel. -/
theorem mod_exp_loop_fuel (m : Int) :
    ∀ (fuel : Nat) (r b e : Int), e.toNat ≤ fuel →
      mod_exp_loop m fuel r b e ≠ .error .outOfFuel := by
  intro fuel
  induction fuel with
  | zero =>
    intro r b e he
    have he0 : ¬ e > 0 := by omega
    simp [mod_exp_loop, he0]
  | succ n ih =>
    intro r b e he
    by_cases he0 : e > 0
    · have hdiv : (e.tdiv 2).toNat ≤ n := by
        rw [Int.tdiv_eq_ediv (by omega) (by omega)]; omega
      have step : ∀ r1 : Int, (rem (b * b) m >>= fun b1 =>
          mod_exp_loop m n r1 b1 (e.tdiv 2)) ≠ .error .outOfFuel := fun r1 =>
        bind_ne_outOfFuel _ _ (rem_ne_outOfFuel _ _) fun b1 => ih r1 b1 _ hdiv
      simp only [mod_exp_loop, he0, if_true]
      split_ifs
      · exact bind_ne_outOfFuel _ _ (rem_ne_outOfFuel _ _) step
      · exact step r
    · simp [mod_exp_loop, he0]

theorem power_eq_pow (base : Int) (n : Nat) : power base n = base ^ n := by
  induction n with
  | zero => simp [power]
  | succ n ih => simp [power, ih, pow_succ, mul_comm]

/-- With a modulus above 1 and a non-negative base, `mod_exp` returns (its fuel is
enough, no remainder by zero) and the value is the reduced power; a non-positive
exponent behaves as exponent 0. -/
theorem mod_exp_eq (base exp mod : Int) (hb : 0 ≤ base) (hm : 1 < mod) :
    mod_exp base exp mod = .ok (base ^ exp.toNat % mod) := by
  unfold mod_exp
  rw [mod_exp_loop_spec mod (by omega) exp.toNat 1 base exp (le_refl _) (by omega) hm hb,
    one_mul]

theorem pow_emod_pow (g m : Int) (j k : Nat) : (g ^ j % m) ^ k % m = g ^ (j * k) % m := by
  have h : (g ^ j % m) ^ k ≡ (g ^ j) ^ k [ZMOD m] := (Int.mod_modEq _ _).pow k
  rw [pow_mul]; exact h

/-! ## The exchange -/

theorem fallback_of_valid (p g : Int) (hp : 1 < p) (hg : 0 < g) : fallback p g = .ok (p, g) := by
  have h : ¬ (p ≤ 1 ∨ g ≤ 0) := by omega
  simp [fallback, h, pure, Except.pure]

theorem fallback_of_invalid (p g : Int) (h : p ≤ 1 ∨ g ≤ 0) : fallback p g = .ok (23, 2) := by
  simp [fallback, h, first, COMMON_PRIMES, COMMON_GENERATORS, pure, Except.pure, bind, Except.bind]

/-- On a modulus above 1 and a positive generator `diffie_hellman` returns, whatever the
private keys are, and these are its six values. -/
theorem diffie_hellman_eq (p g a b : Int) (hp : 1 < p) (hg : 0 < g) :
    diffie_hellman p g a b = .ok ⟨p, g, g ^ a.toNat % p, g ^ b.toNat % p,
      g ^ (a.toNat * b.toNat) % p, g ^ (a.toNat * b.toNat) % p⟩ := by
  have hA : 0 ≤ g ^ a.toNat % p := Int.emod_nonneg _ (by omega)
  have hB : 0 ≤ g ^ b.toNat % p := Int.emod_nonneg _ (by omega)
  simp only [diffie_hellman, fallback_of_valid p g hp hg, bind, Except.bind,
    mod_exp_eq g a p (by omega) hp, mod_exp_eq g b p (by omega) hp,
    mod_exp_eq _ a p hB hp, mod_exp_eq _ b p hA hp, pow_emod_pow, pure, Except.pure]
  rw [mul_comm b.toNat a.toNat]

theorem diffie_hellman_fallback (p g a b : Int) (h : p ≤ 1 ∨ g ≤ 0) :
    diffie_hellman p g a b = diffie_hellman 23 2 a b := by
  simp only [diffie_hellman, fallback_of_invalid p g h,
    fallback_of_valid 23 2 (by decide) (by decide)]

/-! ## Nearest candidate -/

theorem std_abs_eq (x : Int) : std_abs x = |x| := by
  unfold std_abs
  split_ifs with h
  · exact (abs_of_neg h).symm
  · exact (abs_of_nonneg (by omega)).symm

/-- The fold of `find_closest_value` started at `c0`: the result is at most as far from
`input` as `c0` and as every element, and either it is still `c0`, or it is an element
strictly closer than `c0` and than everything before it. -/
theorem foldl_closer (input : Int) :
    ∀ (l : List Int) (c0 : Int),
      |l.foldl (closer input) c0 - input| ≤ |c0 - input| ∧
      (∀ c ∈ l, |l.foldl (closer input) c0 - input| ≤ |c - input|) ∧
      (l.foldl (closer input) c0 = c0 ∨
        ∃ pre post, l = pre ++ l.foldl (closer input) c0 :: post ∧
          |l.foldl (closer input) c0 - input| < |c0 - input| ∧
          ∀ c ∈ pre, |l.foldl (closer input) c0 - input| < |c - input|) := by
  intro l
  induction l with
  | nil => intro c0; simp
  | cons x xs ih =>
    intro c0
    rw [List.foldl_cons]
    by_cases hx : |x - input| < |c0 - input|
    · have hstep : closer input c0 x = x := by simp [closer, std_abs_eq, hx]
      rw [hstep]
      obtain ⟨h1, h2, h3⟩ := ih x
      refine ⟨by omega, ?_, Or.inr ?_⟩
      · intro c hc
        rcases List.mem_cons.1 hc with rfl | hc
        · exact h1
        · exact h2 c hc
      · rcases h3 with h3 | ⟨pre, post, hl, hlt, hpre⟩
        · exact ⟨[], xs, by rw [h3]; rfl, by rw [h3]; exact hx, by simp⟩
        · refine ⟨x :: pre, post, by rw [List.cons_append, ← hl], by omega, ?_⟩
          intro c hc
          rcases List.mem_cons.1 hc with rfl | hc
          · exact hlt
          · exact hpre c hc
    · have hstep : closer input c0 x = c0 := by simp [closer, std_abs_eq, hx]
      rw [hstep]
      obtain ⟨h1, h2, h3⟩ := ih c0
      refine ⟨h1, ?_, ?_⟩
      · intro c hc
        rcases List.mem_cons.1 hc with rfl | hc
        · omega
        · exact h2 c hc
      · rcases h3 with h3 | ⟨pre, post, hl, hlt, hpre⟩
        · exact Or.inl h3
        · refine Or.inr ⟨x :: pre, post, by rw [List.cons_append, ← hl], hlt, ?_⟩
          intro c hc
          rcases List.mem_cons.1 hc with rfl | hc
          · omega
          · exact hpre c hc

/-- On a non-empty vector `find_closest_value` returns an element that is nearest to
`input`, the first of the nearest ones. -/
theorem find_closest_value_spec (candidates : List Int) (input : Int) (hne : candidates ≠ []) :
    ∃ pre r post, candidates = pre ++ r :: post ∧
      find_closest_value candidates input = .ok r ∧
      (∀ c ∈ candidates, |r - input| ≤ |c - input|) ∧
      (∀ c ∈ pre, |r - input| < |c - input|) := by
  cases candidates with
  | nil => exact absurd rfl hne
  | cons c0 tail =>
    have hfirst : closer input c0 c0 = c0 := by simp [closer]
    have hval : find_closest_value (c0 :: tail) input
        = .ok (tail.foldl (closer input) c0) := by
      simp [find_closest_value, first, bind, Except.bind, pure, Except.pure, hfirst]
    obtain ⟨h1, h2, h3⟩ := foldl_closer input tail c0
    rcases h3 with h3 | ⟨pre, post, hl, hlt, hpre⟩
    · refine ⟨[], c0, tail, rfl, by rw [hval, h3], ?_, by simp⟩
      intro c hc
      rcases List.mem_cons.1 hc with rfl | hc
      · exact le_refl _
      · have := h2 c hc
        rwa [h3] at this
    · refine ⟨c0 :: pre, tail.foldl (closer input) c0, post,
        by rw [List.cons_append, ← hl], hval, ?_, ?_⟩
      · intro c hc
        rcases List.mem_cons.1 hc with rfl | hc
        · exact h1
        · exact h2 c hc
      · intro c hc
        rcases List.mem_cons.1 hc with rfl | hc
        · exact hlt
        · exact hpre c hc

theorem find_closest_value_mem (candidates : List Int) (input : Int) (hne : candidates ≠ []) :
    ∃ r, r ∈ candidates ∧ find_closest_value candidates input = .ok r := by
  obtain ⟨pre, r, post, hl, hr, -, -⟩ := find_closest_value_spec candidates input hne
  exact ⟨r, by rw [hl]; simp, hr⟩

theorem find_closest_value_of_mem (candidates : List Int) (input : Int)
    (hmem : input ∈ candidates) : find_closest_value candidates input = .ok input := by
  obtain ⟨pre, r, post, -, hr, hmin, -⟩ :=
    find_closest_value_spec candidates input (List.ne_nil_of_mem hmem)
  have h := hmin input hmem
  rw [sub_self, abs_zero] at h
  have h0 : r - input = 0 := abs_eq_zero.1 (le_antisymm h (abs_nonneg _))
  have : r = input := by omega
  rw [hr, this]

theorem find_closest_prime_of_le_one (p : Int) (hp : p ≤ 1) :
    find_closest_value COMMON_PRIMES p = .ok 23 := by
  obtain ⟨pre, r, post, hl, hr, hmin, -⟩ :=
    find_closest_value_spec COMMON_PRIMES p (by decide)
  have hmem : r ∈ COMMON_PRIMES := by rw [hl]; simp
  have h23 := hmin 23 (by decide)
  have hge : 23 ≤ r := by
    simp only [COMMON_PRIMES, List.mem_cons, List.mem_singleton, List.not_mem_nil,
      or_false] at hmem
    omega
  rw [abs_of_nonneg (by omega), abs_of_nonneg (by omega)] at h23
  have : r = 23 := by omega
  rw [hr, this]

theorem find_closest_generator_of_nonpos (g : Int) (hg : g ≤ 0) :
    find_closest_value COMMON_GENERATORS g = .ok 2 := by
  obtain ⟨pre, r, post, hl, hr, hmin, -⟩ :=
    find_closest_value_spec COMMON_GENERATORS g (by decide)
  have hmem : r ∈ COMMON_GENERATORS := by rw [hl]; simp
  have h2 := hmin 2 (by decide)
  have hge : 2 ≤ r := by
    simp only [COMMON_GENERATORS, List.mem_cons, List.mem_singleton, List.not_mem_nil,
      or_false] at hmem
    omega
  rw [abs_of_nonneg (by omega), abs_of_nonneg (by omega)] at h2
  have : r = 2 := by omega
  rw [hr, this]

/-! ## Reading and repairing the parameters -/

theorem repair_of_valid (v : Params) (h : v.valid) : repair v = .ok v := by
  obtain ⟨h1, h2, h3, h4⟩ := h
  have hn : ¬ (v.p ≤ 1 ∨ v.g ≤ 0 ∨ v.private_a ≤ 0 ∨ v.private_b ≤ 0) := by omega
  simp [repair, hn, pure, Except.pure]

theorem repair_of_invalid (v : Params) (h : ¬ v.valid) :
    ∃ P G, P ∈ COMMON_PRIMES ∧ G ∈ COMMON_GENERATORS ∧
      find_closest_value COMMON_PRIMES v.p = .ok P ∧
      find_closest_value COMMON_GENERATORS v.g = .ok G ∧
      repair v = .ok ⟨P, G, max 1 v.private_a, max 1 v.private_b⟩ := by
  have hn : v.p ≤ 1 ∨ v.g ≤ 0 ∨ v.private_a ≤ 0 ∨ v.private_b ≤ 0 := by
    unfold Params.valid at h; omega
  obtain ⟨P, hP, hPeq⟩ := find_closest_value_mem COMMON_PRIMES v.p (by decide)
  obtain ⟨G, hG, hGeq⟩ := find_closest_value_mem COMMON_GENERATORS v.g (by decide)
  refine ⟨P, G, hP, hG, hPeq, hGeq, ?_⟩
  simp [repair, hn, hPeq, hGeq, bind, Except.bind, pure, Except.pure]

theorem common_prime_gt_one (P : Int) (h : P ∈ COMMON_PRIMES) : 1 < P := by
  simp only [COMMON_PRIMES, List.mem_cons, List.mem_singleton, List.not_mem_nil,
    or_false] at h
  omega

theorem common_generator_pos (G : Int) (h : G ∈ COMMON_GENERATORS) : 0 < G := by
  simp only [COMMON_GENERATORS, List.mem_cons, List.mem_singleton, List.not_mem_nil,
    or_false] at h
  omega

/-- The repair block always returns a valid tuple. -/
theorem repair_valid (v : Params) : ∃ w, repair v = .ok w ∧ w.valid := by
  by_cases h : v.valid
  · exact ⟨v, repair_of_valid v h, h⟩
  · obtain ⟨P, G, hP, hG, -, -, hr⟩ := repair_of_invalid v h
    refine ⟨_, hr, common_prime_gt_one P hP, common_generator_pos G hG, ?_, ?_⟩
    · show 0 < max 1 v.private_a
      omega
    · show 0 < max 1 v.private_b
      omega

theorem extracted_read (v : Params) : extracted (.read v) = .ok v := rfl

theorem extracted_failed (v : Params) : extracted (.failed v) = .ok ⟨23, 2, 6, 15⟩ := rfl

theorem read_params_read (v cur w : Params) (h : repair v = .ok w) :
    read_params_from_file (some (.read v)) cur = .ok (true, w) := by
  simp [read_params_from_file, extracted_read, h, bind, Except.bind, pure, Except.pure]

theorem read_params_failed (v cur : Params) :
    read_params_from_file (some (.failed v)) cur = .ok (true, ⟨23, 2, 6, 15⟩) := by
  have h : repair ⟨23, 2, 6, 15⟩ = .ok ⟨23, 2, 6, 15⟩ := repair_of_valid _ (by decide)
  simp [read_params_from_file, extracted_failed, h, bind, Except.bind, pure, Except.pure]

theorem read_params_none (cur : Params) :
    read_params_from_file none cur = .ok (false, cur) := rfl

theorem main_case2_of_read (file : Option Extraction) (cur w : Params) (r : Exchange)
    (h : read_params_from_file file cur = .ok (true, w))
    (hr : diffie_hellman w.p w.g w.private_a w.private_b = .ok r) :
    main_case2 file cur = .ok (some r) := by
  simp [main_case2, h, hr, bind, Except.bind, pure, Except.pure]


/-! ## Claims -/

/-- C5 (fallback on broken core parameters): when p <= 1 or g <= 0, `diffie_hellman`
computes with modulus 23 and generator 2, the first elements of `COMMON_PRIMES` and
`COMMON_GENERATORS`, and the private keys as given: it returns what it returns on
(23, 2, privateA, privateB).  When p > 1 and g > 0 it computes with p and g. -/
theorem diffie_hellman_fallback_rule (p g private_a private_b : Int) :
    (p ≤ 1 ∨ g ≤ 0 →
      first COMMON_PRIMES = .ok 23 ∧ first COMMON_GENERATORS = .ok 2 ∧
      fallback p g = .ok (23, 2) ∧
      diffie_hellman p g private_a private_b = diffie_hellman 23 2 private_a private_b ∧
      ∃ r, diffie_hellman p g private_a private_b = .ok r ∧ r.p = 23 ∧ r.g = 2 ∧
        mod_exp 2 private_a 23 = .ok r.public_a ∧ mod_exp 2 private_b 23 = .ok r.public_b ∧
        mod_exp r.public_b private_a 23 = .ok r.shared_key_a ∧
        mod_exp r.public_a private_b 23 = .ok r.shared_key_b) ∧
    (1 < p ∧ 0 < g →
      fallback p g = .ok (p, g) ∧
      ∃ r, diffie_hellman p g private_a private_b = .ok r ∧ r.p = p ∧ r.g = g ∧
        mod_exp g private_a p = .ok r.public_a ∧ mod_exp g private_b p = .ok r.public_b ∧
        mod_exp r.public_b private_a p = .ok r.shared_key_a ∧
        mod_exp r.public_a private_b p = .ok r.shared_key_b) := by
  have key : ∀ (P G : Int), 1 < P → 0 < G →
      ∃ r, diffie_hellman P G private_a private_b = .ok r ∧ r.p = P ∧ r.g = G ∧
        mod_exp G private_a P = .ok r.public_a ∧ mod_exp G private_b P = .ok r.public_b ∧
        mod_exp r.public_b private_a P = .ok r.shared_key_a ∧
        mod_exp r.public_a private_b P = .ok r.shared_key_b := by
    intro P G hP hG
    have hA : 0 ≤ G ^ private_a.toNat % P := Int.emod_nonneg _ (by omega)
    have hB : 0 ≤ G ^ private_b.toNat % P := Int.emod_nonneg _ (by omega)
    refine ⟨_, diffie_hellman_eq P G private_a private_b hP hG, rfl, rfl,
      mod_exp_eq G private_a P (by omega) hP, mod_exp_eq G private_b P (by omega) hP, ?_, ?_⟩
    · show mod_exp (G ^ private_b.toNat % P) private_a P = _
      rw [mod_exp_eq _ private_a P hB hP, pow_emod_pow, mul_comm]
    · show mod_exp (G ^ private_a.toNat % P) private_b P = _
      rw [mod_exp_eq _ private_b P hA hP, pow_emod_pow]
  refine ⟨fun h => ⟨rfl, rfl, fallback_of_invalid p g h, diffie_hellman_fallback p g _ _ h, ?_⟩,
    fun h => ⟨fallback_of_valid p g h.1 h.2, key p g h.1 h.2⟩⟩
  rw [diffie_hellman_fallback p g _ _ h]
  exact key 23 2 (by decide) (by decide)

theorem diffie_hellman_fallback_rule_witness :
    diffie_hellman 0 (-1) 6 15 = diffie_hellman 23 2 6 15 ∧
    diffie_hellman 0 (-1) 6 15 = .ok ⟨23, 2, 18, 16, 4, 4⟩ ∧
    fallback 23 5 = .ok (23, 5) :=
  ⟨((diffie_hellman_fallback_rule 0 (-1) 6 15).1 (by decide)).2.2.2.1, by decide,
    ((diffie_hellman_fallback_rule 23 5 6 15).2 (by decide)).1⟩

/-- C7 (structural validity): on a file that opens, `read_params_from_file` returns true,
whether the four integers are read or the read fails; and whenever it returns true its
output has modulus > 1, generator > 0 and private keys > 0, the following
`diffie_hellman` computes with that modulus and generator and returns, so that every
`mod_exp` call has modulus >= 1 and exponent >= 0. -/
theorem read_params_structurally_valid (cur : Params) :
    (∀ e : Extraction, ∃ w, read_params_from_file (some e) cur = .ok (true, w)) ∧
    ∀ (file : Option Extraction) (w : Params),
      read_params_from_file file cur = .ok (true, w) →
      (1 < w.p ∧ 0 < w.g ∧ 0 < w.private_a ∧ 0 < w.private_b) ∧
      (1 ≤ w.p ∧ 0 ≤ w.private_a ∧ 0 ≤ w.private_b) ∧
      fallback w.p w.g = .ok (w.p, w.g) ∧
      ∃ r, diffie_hellman w.p w.g w.private_a w.private_b = .ok r ∧
        r.p = w.p ∧ r.g = w.g ∧ main_case2 file cur = .ok (some r) := by
  have total : ∀ e : Extraction, ∃ w, read_params_from_file (some e) cur = .ok (true, w) ∧
      w.valid := by
    intro e
    cases e with
    | read v =>
      obtain ⟨w, hw, hv⟩ := repair_valid v
      exact ⟨w, read_params_read v cur w hw, hv⟩
    | failed v => exact ⟨_, read_params_failed v cur, by decide⟩
  refine ⟨fun e => (total e).imp fun w hw => hw.1, ?_⟩
  intro file w h
  have hv : w.valid := by
    cases file with
    | none =>
      rw [read_params_none] at h
      exact absurd (congrArg Prod.fst (Except.ok.inj h)) Bool.false_ne_true
    | some e =>
      obtain ⟨w', hw', hv'⟩ := total e
      rw [hw'] at h
      have : w' = w := congrArg Prod.snd (Except.ok.inj h)
      exact this ▸ hv'
  obtain ⟨h1, h2, h3, h4⟩ := hv
  refine ⟨⟨h1, h2, h3, h4⟩, ⟨by omega, by omega, by omega⟩, fallback_of_valid _ _ h1 h2, _,
    diffie_hellman_eq w.p w.g w.private_a w.private_b h1 h2, rfl, rfl, ?_⟩
  exact main_case2_of_read file cur w _ h (diffie_hellman_eq _ _ _ _ h1 h2)

theorem read_params_structurally_valid_witness :
    read_params_from_file (some (.read ⟨0, -3, -5, 4⟩)) ⟨0, 0, 0, 0⟩
      = .ok (true, ⟨23, 2, 1, 4⟩) ∧
    ((1 : Int) < 23 ∧ (0 : Int) < 2 ∧ (0 : Int) < 1 ∧ (0 : Int) < 4) :=
  have h : read_params_from_file (some (.read ⟨0, -3, -5, 4⟩)) ⟨0, 0, 0, 0⟩
      = .ok (true, ⟨23, 2, 1, 4⟩) := by decide
  ⟨h, ((read_params_structurally_valid ⟨0, 0, 0, 0⟩).2 _ _ h).1⟩

/-- C9, evaluated on the code: on the manual-entry path the private keys are read with
the empty candidate list; a non-numeric token makes `get_valid_or_guessed_input` read
`candidates[0]` of the empty list, and a number <= 0 makes it call `find_closest_value` on
the empty list, which reads `candidates[0]` as well.  Only a number > 0 is returned. -/
theorem private_key_entry_reads_empty_list :
    get_valid_or_guessed_input [] none = .error .outOfRange ∧
    get_valid_or_guessed_input [] (some (-5)) = find_closest_value [] (-5) ∧
    find_closest_value [] (-5) = .error .outOfRange ∧
    get_valid_or_guessed_input [] (some 6) = .ok 6 ∧
    main_case1 (some 23) (some 5) (some (-5)) (some 15) = .error .outOfRange ∧
    main_case1 (some 23) (some 5) none (some 15) = .error .outOfRange ∧
    ∀ token : Option Int, get_valid_or_guessed_input [] token =
      match token with
      | none => .error .outOfRange
      | some value => if value ≤ 0 then .error .outOfRange else .ok value := by
  refine ⟨by decide, by decide, by decide, by decide, by decide, by decide, ?_⟩
  intro token
  cases token with
  | none => rfl
  | some value =>
    by_cases h : value ≤ 0
    · simp [get_valid_or_guessed_input, h, find_closest_value, first, bind, Except.bind]
    · simp [get_valid_or_guessed_input, h, pure, Except.pure]

/-- C10 (private key clamp): for every tuple read from the file, `read_params_from_file`
returns privateA = max(1, raw privateA) and privateB = max(1, raw privateB). -/
theorem private_keys_clamped (v cur : Params) :
    ∃ w, read_params_from_file (some (.read v)) cur = .ok (true, w) ∧
      w.private_a = max 1 v.private_a ∧ w.private_b = max 1 v.private_b := by
  by_cases h : v.valid
  · have h3 : 0 < v.private_a := h.2.2.1
    have h4 : 0 < v.private_b := h.2.2.2
    exact ⟨v, read_params_read v cur v (repair_of_valid v h), by omega, by omega⟩
  · obtain ⟨P, G, -, -, -, -, hr⟩ := repair_of_invalid v h
    exact ⟨_, read_params_read v cur _ hr, rfl, rfl⟩

theorem private_keys_clamped_witness :
    ∃ w, read_params_from_file (some (.read ⟨23, 5, -5, 15⟩)) ⟨0, 0, 0, 0⟩ = .ok (true, w) ∧
      w.private_a = 1 ∧ w.private_b = 15 :=
  private_keys_clamped ⟨23, 5, -5, 15⟩ ⟨0, 0, 0, 0⟩

/-! ## The run of the loop and 64-bit arithmetic -/

theorem wrap64_of_range (x : Int) (hlo : LLONG_MIN ≤ x) (hhi : x ≤ LLONG_MAX) : wrap64 x = x := by
  unfold LLONG_MIN at hlo
  unfold LLONG_MAX at hhi
  unfold wrap64
  omega

/-- One iteration of the recorded loop on an odd exponent. -/
theorem run_loop_odd (wrap : Int → Int) (m : Int) (hm : 0 < m) (fuel : Nat) (r b e : Int)
    (he : e > 0) (hodd : e.tmod 2 = 1) :
    mod_exp_run_loop wrap m (fuel + 1) r b e =
      (mod_exp_run_loop wrap m fuel ((wrap (r * b)).tmod m) ((wrap (b * b)).tmod m)
        (e.tdiv 2)).map fun run =>
          ⟨run.result, run.iterations + 1, r * b :: b * b :: run.products,
            (wrap (r * b)).tmod m :: (wrap (b * b)).tmod m :: run.reduced⟩ := by
  simp only [mod_exp_run_loop, he, hodd, if_true, rem_of_pos _ _ hm, bind, Except.bind,
    pure, Except.pure, Except.map, List.singleton_append]

/-- One iteration of the recorded loop on an even exponent. -/
theorem run_loop_even (wrap : Int → Int) (m : Int) (hm : 0 < m) (fuel : Nat) (r b e : Int)
    (he : e > 0) (heven : ¬ e.tmod 2 = 1) :
    mod_exp_run_loop wrap m (fuel + 1) r b e =
      (mod_exp_run_loop wrap m fuel r ((wrap (b * b)).tmod m) (e.tdiv 2)).map fun run =>
          ⟨run.result, run.iterations + 1, b * b :: run.products,
            (wrap (b * b)).tmod m :: run.reduced⟩ := by
  simp only [mod_exp_run_loop, he, heven, if_true, if_false, rem_of_pos _ _ hm, bind,
    Except.bind,
    pure, Except.pure, Except.map, List.nil_append]

theorem run_loop_done (wrap : Int → Int) (m : Int) (fuel : Nat) (r b e : Int) (he : ¬ e > 0) :
    mod_exp_run_loop wrap m fuel r b e = .ok ⟨r, 0, [], []⟩ := by
  cases fuel <;> simp [mod_exp_run_loop, he]

theorem log2_half (n : Nat) (hn : 0 < n) :
    (if 0 < n / 2 then Nat.log2 (n / 2) + 1 else 0) = Nat.log2 n := by
  conv_rhs => rw [Nat.log2]
  by_cases h : n ≥ 2
  · have : 0 < n / 2 := by omega
    simp [h, this]
  · have : ¬ 0 < n / 2 := by omega
    simp [h, this]

theorem toNat_tdiv_two (e : Int) (he : e > 0) : (e.tdiv 2).toNat = e.toNat / 2 := by
  rw [Int.tdiv_eq_ediv (by omega) (by omega)]; omega

/-- With a modulus of 1 or more and fuel `exp.toNat` or more the recorded loop returns,
whatever the arithmetic does to the products: the body runs `log2 exp + 1` times on a
positive exponent and never otherwise, and each run of the body makes one or two
products. -/
theorem run_loop_count (wrap : Int → Int) (m : Int) (hm : 0 < m) :
    ∀ (fuel : Nat) (r b e : Int), e.toNat ≤ fuel →
      ∃ run, mod_exp_run_loop wrap m fuel r b e = .ok run ∧
        run.iterations = (if 0 < e then Nat.log2 e.toNat + 1 else 0) ∧
        run.iterations ≤ run.products.length ∧
        run.products.length ≤ 2 * run.iterations ∧
        run.reduced.length = run.products.length := by
  intro fuel
  induction fuel with
  | zero =>
    intro r b e he
    have he0 : ¬ e > 0 := by omega
    have he1 : ¬ 0 < e := he0
    exact ⟨_, run_loop_done wrap m 0 r b e he0, by simp [he1], by simp, by simp, by simp⟩
  | succ n ih =>
    intro r b e he
    by_cases he0 : e > 0
    · have he1 : 0 < e := he0
      have hk : 0 < e.toNat := by omega
      have hdiv := toNat_tdiv_two e he0
      have hlog := log2_half e.toNat hk
      have hpos : (0 < e.tdiv 2) ↔ 0 < e.toNat / 2 := by
        rw [← hdiv]; omega
      by_cases hodd : e.tmod 2 = 1
      · obtain ⟨run, hrun, hit, hlo, hhi, hlen⟩ :=
          ih ((wrap (r * b)).tmod m) ((wrap (b * b)).tmod m) (e.tdiv 2) (by omega)
        refine ⟨_, by rw [run_loop_odd wrap m hm n r b e he0 hodd, hrun]; rfl, ?_, ?_, ?_, ?_⟩
        · simp only [he1, if_true, hit, hdiv, hpos, hlog]
        · simp only [List.length_cons]; omega
        · simp only [List.length_cons]; omega
        · simp only [List.length_cons]; omega
      · obtain ⟨run, hrun, hit, hlo, hhi, hlen⟩ :=
          ih r ((wrap (b * b)).tmod m) (e.tdiv 2) (by omega)
        refine ⟨_, by rw [run_loop_even wrap m hm n r b e he0 hodd, hrun]; rfl, ?_, ?_, ?_, ?_⟩
        · simp only [he1, if_true, hit, hdiv, hpos, hlog]
        · simp only [List.length_cons]; omega
        · simp only [List.length_cons]; omega
        · simp only [List.length_cons]; omega
    · have he1 : ¬ 0 < e := he0
      exact ⟨_, run_loop_done wrap m _ r b e he0, by simp [he1], by simp, by simp, by simp⟩

theorem map_result_map (x : Except Fault Run) (g : Run → Run)
    (hg : ∀ run, (g run).result = run.result) :
    (x.map g).map Run.result = x.map Run.result := by
  cases x <;> simp [Except.map, hg]

/-- In exact arithmetic the recorded loop returns what `mod_exp_loop` returns. -/
theorem run_loop_result (m : Int) (hm : 0 < m) :
    ∀ (fuel : Nat) (r b e : Int),
      (mod_exp_run_loop id m fuel r b e).map Run.result = mod_exp_loop m fuel r b e := by
  intro fuel
  induction fuel with
  | zero =>
    intro r b e
    by_cases he0 : e > 0 <;> simp [mod_exp_run_loop, mod_exp_loop, he0, Except.map]
  | succ n ih =>
    intro r b e
    by_cases he0 : e > 0
    · by_cases hodd : e.tmod 2 = 1
      · rw [run_loop_odd id m hm n r b e he0 hodd]
        simp only [mod_exp_loop, he0, hodd, if_true, rem_of_pos _ _ hm, bind, Except.bind]
        refine Eq.trans (map_result_map _ _ ?_) (ih _ _ _)
        intro run
        rfl
      · rw [run_loop_even id m hm n r b e he0 hodd]
        simp only [mod_exp_loop, he0, hodd, if_true, if_false, rem_of_pos _ _ hm, bind,
          Except.bind, pure, Except.pure]
        refine Eq.trans (map_result_map _ _ ?_) (ih _ _ _)
        intro run
        rfl
    · rw [run_loop_done id m _ r b e he0]
      simp [mod_exp_loop, he0, Except.map]

theorem product_in_range (r b : Int) (hr : 0 ≤ r) (hr2 : r ≤ 3037000499)
    (hb : 0 ≤ b) (hb2 : b ≤ 3037000499) :
    0 ≤ r * b ∧ r * b ≤ LLONG_MAX ∧ wrap64 (r * b) = r * b := by
  have h0 : 0 ≤ r * b := mul_nonneg hr hb
  have h1 : r * b ≤ 3037000499 * 3037000499 := mul_le_mul hr2 hb2 hb (by omega)
  have h2 : r * b ≤ LLONG_MAX := by unfold LLONG_MAX; omega
  exact ⟨h0, h2, wrap64_of_range _ (by unfold LLONG_MIN; omega) h2⟩

/-- With a modulus in `[1, 3037000500]` and `result` and `base` in `[0, 3037000499]`, the
64-bit loop runs exactly as the exact one: no product leaves `[0, 2^63 - 1]` and every
reduced value lies in `[0, mod - 1]`. -/
theorem run_loop_wrap64 (m : Int) (hm : 0 < m) (hm2 : m ≤ 3037000500) :
    ∀ (fuel : Nat) (r b e : Int), e.toNat ≤ fuel →
      0 ≤ r → r ≤ 3037000499 → 0 ≤ b → b ≤ 3037000499 →
      ∃ run, mod_exp_run_loop wrap64 m fuel r b e = .ok run ∧
        mod_exp_run_loop id m fuel r b e = .ok run ∧
        (∀ x ∈ run.products, 0 ≤ x ∧ x ≤ LLONG_MAX) ∧
        (∀ v ∈ run.reduced, 0 ≤ v ∧ v ≤ m - 1) := by
  have hm0 : m ≠ 0 := by omega
  have hmp : 0 < m := hm
  have red : ∀ x : Int, 0 ≤ x → 0 ≤ x.tmod m ∧ x.tmod m ≤ m - 1 := by
    intro x hx
    rw [Int.tmod_eq_emod hx (by omega)]
    have h1 := Int.emod_nonneg x hm0
    have h2 := Int.emod_lt_of_pos x hm
    omega
  intro fuel
  induction fuel with
  | zero =>
    intro r b e he _ _ _ _
    have he0 : ¬ e > 0 := by omega
    exact ⟨_, run_loop_done wrap64 m 0 r b e he0, run_loop_done id m 0 r b e he0,
      by simp, by simp⟩
  | succ n ih =>
    intro r b e he hr hr2 hb hb2
    by_cases he0 : e > 0
    · have hdiv := toNat_tdiv_two e he0
      obtain ⟨hbb0, hbb1, hbbw⟩ := product_in_range b b hb hb2 hb hb2
      obtain ⟨hrb0, hrb1, hrbw⟩ := product_in_range r b hr hr2 hb hb2
      have hB := red (b * b) hbb0
      have hR := red (r * b) hrb0
      by_cases hodd : e.tmod 2 = 1
      · obtain ⟨run, h64, hid, hps, hrs⟩ :=
          ih ((r * b).tmod m) ((b * b).tmod m) (e.tdiv 2) (by omega)
            hR.1 (by omega) hB.1 (by omega)
        refine ⟨⟨run.result, run.iterations + 1, r * b :: b * b :: run.products,
          (r * b).tmod m :: (b * b).tmod m :: run.reduced⟩, ?_, ?_, ?_, ?_⟩
        · rw [run_loop_odd wrap64 m hmp n r b e he0 hodd, hrbw, hbbw, h64]; rfl
        · rw [run_loop_odd id m hmp n r b e he0 hodd]
          simp only [id, hid, Except.map, hrbw, hbbw]
        · intro x hx
          simp only [List.mem_cons] at hx
          rcases hx with rfl | rfl | hx
          · exact ⟨hrb0, hrb1⟩
          · exact ⟨hbb0, hbb1⟩
          · exact hps x hx
        · intro v hv
          simp only [List.mem_cons] at hv
          rcases hv with rfl | rfl | hv
          · exact hR
          · exact hB
          · exact hrs v hv
      · obtain ⟨run, h64, hid, hps, hrs⟩ :=
          ih r ((b * b).tmod m) (e.tdiv 2) (by omega) hr hr2 hB.1 (by omega)
        refine ⟨⟨run.result, run.iterations + 1, b * b :: run.products,
          (b * b).tmod m :: run.reduced⟩, ?_, ?_, ?_, ?_⟩
        · rw [run_loop_even wrap64 m hmp n r b e he0 hodd, hbbw, h64]; rfl
        · rw [run_loop_even id m hmp n r b e he0 hodd]
          simp only [id, hid, Except.map, hbbw]
        · intro x hx
          simp only [List.mem_cons] at hx
          rcases hx with rfl | hx
          · exact ⟨hbb0, hbb1⟩
          · exact hps x hx
        · intro v hv
          simp only [List.mem_cons] at hv
          rcases hv with rfl | hv
          · exact hB
          · exact hrs v hv
    · exact ⟨_, run_loop_done wrap64 m _ r b e he0, run_loop_done id m _ r b e he0,
        by simp, by simp⟩

/-- With modulus 1, a positive exponent and non-negative operands the loop returns 0. -/
theorem mod_exp_loop_mod_one :
    ∀ (fuel : Nat) (r b e : Int), e.toNat ≤ fuel → 0 < e → 0 ≤ r → 0 ≤ b →
      mod_exp_loop 1 fuel r b e = .ok 0 := by
  intro fuel
  induction fuel with
  | zero => intro r b e he hpos; omega
  | succ n ih =>
    intro r b e he hpos hr hb
    have he0 : e > 0 := hpos
    have hdiv := toNat_tdiv_two e he0
    have hbb : 0 ≤ b * b := mul_nonneg hb hb
    by_cases hodd : e.tmod 2 = 1
    · simp only [mod_exp_loop, he0, hodd, if_true, bind, Except.bind,
        rem_of_nonneg _ _ (mul_nonneg hr hb) one_pos, rem_of_nonneg _ _ hbb one_pos,
        Int.emod_one]
      rw [mod_exp_loop_spec 1 one_pos n 0 0 (e.tdiv 2) (by omega) (le_refl _) one_pos
        (le_refl _)]
      simp
    · have h2 : 0 < e.tdiv 2 := by
        rw [Int.tmod_eq_emod (by omega) (by omega)] at hodd
        rw [Int.tdiv_eq_ediv (by omega) (by omega)]
        omega
      simp only [mod_exp_loop, he0, hodd, if_true, if_false, bind, Except.bind, pure,
        Except.pure, rem_of_nonneg _ _ hbb one_pos, Int.emod_one]
      exact ih r 0 (e.tdiv 2) (by omega) h2 hr (le_refl _)

theorem mod_exp_mod_one_of_pos (base exp : Int) (hb : 0 ≤ base) (he : 0 < exp) :
    mod_exp base exp 1 = .ok 0 :=
  mod_exp_loop_mod_one exp.toNat 1 base exp (le_refl _) he (by omega) hb

theorem diffie_hellman_calls (p g a b : Int) (hp : 1 < p) (hg : 0 < g) :
    ∃ r, diffie_hellman p g a b = .ok r ∧ r.p = p ∧ r.g = g ∧
      r.shared_key_a = r.shared_key_b ∧
      mod_exp g a p = .ok r.public_a ∧ mod_exp g b p = .ok r.public_b ∧
      mod_exp r.public_b a p = .ok r.shared_key_a ∧
      mod_exp r.public_a b p = .ok r.shared_key_b := by
  have hA : 0 ≤ g ^ a.toNat % p := Int.emod_nonneg _ (by omega)
  have hB : 0 ≤ g ^ b.toNat % p := Int.emod_nonneg _ (by omega)
  refine ⟨_, diffie_hellman_eq p g a b hp hg, rfl, rfl, rfl,
    mod_exp_eq g a p (by omega) hp, mod_exp_eq g b p (by omega) hp, ?_, ?_⟩
  · show mod_exp (g ^ b.toNat % p) a p = _
    rw [mod_exp_eq _ a p hB hp, pow_emod_pow, mul_comm]
  · show mod_exp (g ^ a.toNat % p) b p = _
    rw [mod_exp_eq _ b p hA hp, pow_emod_pow]

/-! ## The 64-bit program inside the safe range -/

/-- The recorded loop never stops for lack of fuel, whatever the modulus and the
arithmetic. -/
theorem run_loop_fuel (wrap : Int → Int) (m : Int) :
    ∀ (fuel : Nat) (r b e : Int), e.toNat ≤ fuel →
      mod_exp_run_loop wrap m fuel r b e ≠ .error .outOfFuel := by
  intro fuel
  induction fuel with
  | zero =>
    intro r b e he
    have he0 : ¬ e > 0 := by omega
    simp [mod_exp_run_loop, he0]
  | succ n ih =>
    intro r b e he
    by_cases he0 : e > 0
    · have hdiv : (e.tdiv 2).toNat ≤ n := by
        rw [Int.tdiv_eq_ediv (by omega) (by omega)]; omega
      have tail : ∀ (r1 : Int) (ps rs : List Int),
          (rem (wrap (b * b)) m >>= fun base2 =>
            mod_exp_run_loop wrap m n r1 base2 (e.tdiv 2) >>= fun run =>
              (pure ⟨run.result, run.iterations + 1, ps ++ b * b :: run.products,
                rs ++ base2 :: run.reduced⟩ : Except Fault Run)) ≠ .error .outOfFuel := by
        intro r1 ps rs
        refine bind_ne_outOfFuel _ _ (rem_ne_outOfFuel _ _) fun base2 => ?_
        refine bind_ne_outOfFuel _ _ (ih _ _ _ hdiv) fun run => ?_
        simp [pure, Except.pure]
      by_cases hodd : e.tmod 2 = 1
      · simp only [mod_exp_run_loop, he0, hodd, if_true]
        refine bind_ne_outOfFuel _ _ (rem_ne_outOfFuel _ _) fun r1 => ?_
        exact tail _ _ _
      · simp only [mod_exp_run_loop, he0, hodd, if_true, if_false]
        exact bind_ne_outOfFuel _ _ (by simp [pure, Except.pure]) fun odd => tail _ _ _
    · simp [mod_exp_run_loop, he0]

/-- Inside the safe range the 64-bit `mod_exp` returns the reduced power. -/
theorem mod_exp64_eq (base exp m : Int) (hm : 1 < m) (hm2 : m ≤ 3037000500)
    (hb : 0 ≤ base) (hb2 : base ≤ 3037000499) :
    ∃ run, mod_exp64 base exp m = .ok run ∧ run.result = base ^ exp.toNat % m ∧
      ∀ x ∈ run.products, LLONG_MIN ≤ x ∧ x ≤ LLONG_MAX := by
  obtain ⟨run, h64, hid, hps, -⟩ :=
    run_loop_wrap64 m (by omega) hm2 exp.toNat 1 base exp (le_refl _) (by omega) (by omega)
      hb hb2
  refine ⟨run, h64, ?_, ?_⟩
  · have h1 := run_loop_result m (by omega) exp.toNat 1 base exp
    rw [hid] at h1
    have h2 : mod_exp_loop m exp.toNat 1 base exp = .ok (base ^ exp.toNat % m) :=
      mod_exp_eq base exp m hb hm
    rw [h2] at h1
    exact Except.ok.inj h1
  · intro x hx
    have := hps x hx
    exact ⟨by unfold LLONG_MIN; omega, this.2⟩

/-- Inside the safe range the four `mod_exp` calls of the 64-bit `diffie_hellman` return
the reduced powers, and these make up its result. -/
theorem diffie_hellman64_calls (p g a b : Int) (hp : 1 < p) (hp2 : p ≤ 3037000500)
    (hg : 0 < g) (hg2 : g ≤ 3037000499) :
    ∃ pa pb sa sb : Run,
      mod_exp64 g a p = .ok pa ∧ mod_exp64 g b p = .ok pb ∧
      mod_exp64 pb.result a p = .ok sa ∧ mod_exp64 pa.result b p = .ok sb ∧
      pa.result = g ^ a.toNat % p ∧ pb.result = g ^ b.toNat % p ∧
      sa.result = g ^ (a.toNat * b.toNat) % p ∧ sb.result = g ^ (a.toNat * b.toNat) % p ∧
      diffie_hellman64 p g a b
        = .ok ⟨p, g, pa.result, pb.result, sa.result, sb.result⟩ := by
  obtain ⟨pa, hpa, hpar, -⟩ := mod_exp64_eq g a p hp hp2 (by omega) hg2
  obtain ⟨pb, hpb, hpbr, -⟩ := mod_exp64_eq g b p hp hp2 (by omega) hg2
  have hA0 : 0 ≤ pa.result := by rw [hpar]; exact Int.emod_nonneg _ (by omega)
  have hB0 : 0 ≤ pb.result := by rw [hpbr]; exact Int.emod_nonneg _ (by omega)
  have hA1 : pa.result ≤ 3037000499 := by
    have := Int.emod_lt_of_pos (g ^ a.toNat) (by omega : 0 < p)
    rw [hpar]; omega
  have hB1 : pb.result ≤ 3037000499 := by
    have := Int.emod_lt_of_pos (g ^ b.toNat) (by omega : 0 < p)
    rw [hpbr]; omega
  obtain ⟨sa, hsa, hsar, -⟩ := mod_exp64_eq pb.result a p hp hp2 hB0 hB1
  obtain ⟨sb, hsb, hsbr, -⟩ := mod_exp64_eq pa.result b p hp hp2 hA0 hA1
  refine ⟨pa, pb, sa, sb, hpa, hpb, hsa, hsb, hpar, hpbr, ?_, ?_, ?_⟩
  · rw [hsar, hpbr, pow_emod_pow, mul_comm]
  · rw [hsbr, hpar, pow_emod_pow]
  · simp only [diffie_hellman64, fallback_of_valid p g hp hg, bind, Except.bind, hpa, hpb,
      hsa, hsb, pure, Except.pure]

theorem toNat_mul_of_pos (a b : Int) (ha : 0 < a) (hb : 0 < b) :
    (a * b).toNat = a.toNat * b.toNat := by
  have h1 : ((a.toNat : Int)) = a := Int.toNat_of_nonneg (by omega)
  have h2 : ((b.toNat : Int)) = b := Int.toNat_of_nonneg (by omega)
  have h3 : a * b = ((a.toNat * b.toNat : Nat) : Int) := by
    push_cast; rw [h1, h2]
  rw [h3, Int.toNat_natCast]

/-! ## Nearest candidate on 64 bits -/

theorem std_abs_bounds (d : Int) (hlo : -LLONG_MAX ≤ d) (hhi : d ≤ LLONG_MAX) :
    std_abs64 (wrap64 d) = std_abs d := by
  unfold LLONG_MAX at hlo hhi
  have hw : wrap64 d = d :=
    wrap64_of_range d (by unfold LLONG_MIN; omega) (by unfold LLONG_MAX; omega)
  rw [hw]
  unfold std_abs64 std_abs
  apply wrap64_of_range
  · unfold LLONG_MIN; split_ifs <;> omega
  · unfold LLONG_MAX; split_ifs <;> omega

theorem closer64_eq (input closest candidate : Int)
    (h1 : -LLONG_MAX ≤ closest - input ∧ closest - input ≤ LLONG_MAX)
    (h2 : -LLONG_MAX ≤ candidate - input ∧ candidate - input ≤ LLONG_MAX) :
    closer64 input closest candidate = closer input closest candidate := by
  unfold closer64 closer
  rw [std_abs_bounds _ h1.1 h1.2, std_abs_bounds _ h2.1 h2.2]

theorem closer_cases (input closest candidate : Int) :
    closer input closest candidate = closest ∨ closer input closest candidate = candidate := by
  unfold closer; split_ifs
  · exact Or.inr rfl
  · exact Or.inl rfl

theorem closer64_cases (input closest candidate : Int) :
    closer64 input closest candidate = closest ∨
      closer64 input closest candidate = candidate := by
  unfold closer64; split_ifs
  · exact Or.inr rfl
  · exact Or.inl rfl

/-- While no difference `candidate - input` leaves `[-LLONG_MAX, LLONG_MAX]` the 64-bit
fold is the exact fold. -/
theorem foldl_closer64_eq (input : Int) :
    ∀ (l : List Int) (c0 : Int),
      (-LLONG_MAX ≤ c0 - input ∧ c0 - input ≤ LLONG_MAX) →
      (∀ c ∈ l, -LLONG_MAX ≤ c - input ∧ c - input ≤ LLONG_MAX) →
      l.foldl (closer64 input) c0 = l.foldl (closer input) c0 := by
  intro l
  induction l with
  | nil => intro c0 _ _; rfl
  | cons x xs ih =>
    intro c0 h0 hl
    have hx := hl x (List.mem_cons_self _ _)
    rw [List.foldl_cons, List.foldl_cons, closer64_eq input c0 x h0 hx]
    refine ih _ ?_ fun c hc => hl c (List.mem_cons_of_mem _ hc)
    rcases closer_cases input c0 x with h | h <;> rw [h]
    · exact h0
    · exact hx

theorem find_closest_value64_eq (candidates : List Int) (input : Int)
    (h : ∀ c ∈ candidates, -LLONG_MAX ≤ c - input ∧ c - input ≤ LLONG_MAX) :
    find_closest_value64 candidates input = find_closest_value candidates input := by
  cases candidates with
  | nil => rfl
  | cons c0 tail =>
    simp only [find_closest_value64, find_closest_value, first, bind, Except.bind, pure,
      Except.pure]
    rw [foldl_closer64_eq input (c0 :: tail) c0 (h c0 (List.mem_cons_self _ _)) h]

theorem foldl_closer64_mem (input : Int) :
    ∀ (l : List Int) (c0 : Int), l.foldl (closer64 input) c0 ∈ c0 :: l := by
  intro l
  induction l with
  | nil => intro c0; simp
  | cons x xs ih =>
    intro c0
    rw [List.foldl_cons]
    have h := ih (closer64 input c0 x)
    rcases closer64_cases input c0 x with hc | hc <;> rw [hc] at h ⊢
    · rcases List.mem_cons.1 h with h | h
      · rw [h]; exact List.mem_cons_self _ _
      · exact List.mem_cons_of_mem _ (List.mem_cons_of_mem _ h)
    · exact List.mem_cons_of_mem _ h

/-- The 64-bit search returns an element of a non-empty vector, whatever the input. -/
theorem find_closest_value64_mem (candidates : List Int) (input : Int)
    (hne : candidates ≠ []) :
    ∃ r, r ∈ candidates ∧ find_closest_value64 candidates input = .ok r := by
  cases candidates with
  | nil => exact absurd rfl hne
  | cons c0 tail =>
    refine ⟨(c0 :: tail).foldl (closer64 input) c0, ?_, rfl⟩
    have h := foldl_closer64_mem input (c0 :: tail) c0
    rcases List.mem_cons.1 h with h | h
    · rw [h]; exact List.mem_cons_self _ _
    · exact h

theorem common_primes_in_range (p : Int) (hlo : LLONG_MIN + 522 ≤ p) (hhi : p ≤ LLONG_MAX) :
    ∀ c ∈ COMMON_PRIMES, -LLONG_MAX ≤ c - p ∧ c - p ≤ LLONG_MAX := by
  intro c hc
  unfold LLONG_MIN at hlo
  unfold LLONG_MAX at hhi ⊢
  simp only [COMMON_PRIMES, List.mem_cons, List.mem_singleton, List.not_mem_nil,
    or_false] at hc
  omega

theorem common_generators_in_range (g : Int) (hlo : LLONG_MIN + 8 ≤ g) (hhi : g ≤ LLONG_MAX) :
    ∀ c ∈ COMMON_GENERATORS, -LLONG_MAX ≤ c - g ∧ c - g ≤ LLONG_MAX := by
  intro c hc
  unfold LLONG_MIN at hlo
  unfold LLONG_MAX at hhi ⊢
  simp only [COMMON_GENERATORS, List.mem_cons, List.mem_singleton, List.not_mem_nil,
    or_false] at hc
  omega

theorem common_prime_bounds (P : Int) (h : P ∈ COMMON_PRIMES) : 23 ≤ P ∧ P ≤ 521 := by
  simp only [COMMON_PRIMES, List.mem_cons, List.mem_singleton, List.not_mem_nil,
    or_false] at h
  omega

theorem common_generator_bounds (G : Int) (h : G ∈ COMMON_GENERATORS) : 2 ≤ G ∧ G ≤ 7 := by
  simp only [COMMON_GENERATORS, List.mem_cons, List.mem_singleton, List.not_mem_nil,
    or_false] at h
  omega

theorem find_closest_prime64_of_mem (p : Int) (h : p ∈ COMMON_PRIMES) :
    find_closest_value64 COMMON_PRIMES p = .ok p := by
  have hb := common_prime_bounds p h
  rw [find_closest_value64_eq _ _ (common_primes_in_range p (by unfold LLONG_MIN; omega)
    (by unfold LLONG_MAX; omega))]
  exact find_closest_value_of_mem _ _ h

theorem find_closest_generator64_of_mem (g : Int) (h : g ∈ COMMON_GENERATORS) :
    find_closest_value64 COMMON_GENERATORS g = .ok g := by
  have hb := common_generator_bounds g h
  rw [find_closest_value64_eq _ _ (common_generators_in_range g (by unfold LLONG_MIN; omega)
    (by unfold LLONG_MAX; omega))]
  exact find_closest_value_of_mem _ _ h

/-! ## Reading and repairing the parameters on 64 bits -/

theorem repair64_of_valid (v : Params) (h : v.valid) : repair64 v = .ok v := by
  obtain ⟨h1, h2, h3, h4⟩ := h
  have hn : ¬ (v.p ≤ 1 ∨ v.g ≤ 0 ∨ v.private_a ≤ 0 ∨ v.private_b ≤ 0) := by omega
  simp [repair64, hn, pure, Except.pure]

theorem repair64_of_invalid (v : Params) (h : ¬ v.valid) :
    ∃ P G, P ∈ COMMON_PRIMES ∧ G ∈ COMMON_GENERATORS ∧
      find_closest_value64 COMMON_PRIMES v.p = .ok P ∧
      find_closest_value64 COMMON_GENERATORS v.g = .ok G ∧
      repair64 v = .ok ⟨P, G, max 1 v.private_a, max 1 v.private_b⟩ := by
  have hn : v.p ≤ 1 ∨ v.g ≤ 0 ∨ v.private_a ≤ 0 ∨ v.private_b ≤ 0 := by
    unfold Params.valid at h; omega
  obtain ⟨P, hP, hPeq⟩ := find_closest_value64_mem COMMON_PRIMES v.p (by decide)
  obtain ⟨G, hG, hGeq⟩ := find_closest_value64_mem COMMON_GENERATORS v.g (by decide)
  refine ⟨P, G, hP, hG, hPeq, hGeq, ?_⟩
  simp [repair64, hn, hPeq, hGeq, bind, Except.bind, pure, Except.pure]

theorem read_params64_read (v cur w : Params) (h : repair64 v = .ok w) :
    read_params_from_file64 (some (.read v)) cur = .ok (true, w) := by
  simp [read_params_from_file64, extracted_read, h, bind, Except.bind, pure, Except.pure]

theorem main_case2_64_of_read (file : Option Extraction) (cur w : Params) (r : Exchange)
    (h : read_params_from_file64 file cur = .ok (true, w))
    (hr : diffie_hellman64 w.p w.g w.private_a w.private_b = .ok r) :
    main_case2_64 file cur = .ok (some r) := by
  simp [main_case2_64, h, hr, bind, Except.bind, pure, Except.pure]

/-! ## Claims on the boundaries, the run and 64-bit arithmetic -/

/-- C11 (malformed file contents): when the file opens and the extraction of the four
integers fails, whatever the extractions left in the variables, lines 89-92 set the tuple
to (23, 2, 6, 15), the repair block leaves that tuple unchanged, and
`read_params_from_file` returns true with exactly that tuple. -/
theorem malformed_file_defaults (leftover cur : Params) :
    extracted (.failed leftover) = .ok ⟨23, 2, 6, 15⟩ ∧
    repair ⟨23, 2, 6, 15⟩ = .ok ⟨23, 2, 6, 15⟩ ∧
    read_params_from_file (some (.failed leftover)) cur = .ok (true, ⟨23, 2, 6, 15⟩) :=
  ⟨extracted_failed leftover, repair_of_valid _ (by decide), read_params_failed leftover cur⟩

/-- C12, evaluated on the code: with modulus 1 and exponent 0 the loop body never runs and
`mod_exp` returns its initial `result = 1`, for every base, whereas `base^0 mod 1` is 0. -/
theorem mod_exp_modulus_one_exponent_zero :
    mod_exp 5 0 1 = .ok 1 ∧ power 5 0 % 1 = 0 ∧ ∀ base : Int, mod_exp base 0 1 = .ok 1 :=
  ⟨by decide, by decide, fun _ => rfl⟩

/-- C13 (powmod with exponent 0): for every integer base, negative ones included, and every
modulus m > 1, `mod_exp(base, 0, m)` returns 1, which is `1 mod m`. -/
theorem mod_exp_exponent_zero (base m : Int) (hm : 1 < m) :
    mod_exp base 0 m = .ok 1 ∧ (1 : Int) % m = 1 ∧ Int.tmod 1 m = 1 ∧
      mod_exp base 0 m = .ok (power base 0 % m) := by
  have h1 : (1 : Int) % m = 1 := Int.emod_eq_of_lt (by omega) hm
  have h2 : Int.tmod 1 m = 1 := by rw [Int.tmod_eq_emod (by omega) (by omega), h1]
  refine ⟨rfl, h1, h2, ?_⟩
  show mod_exp base 0 m = .ok (1 % m)
  rw [h1]
  rfl

theorem mod_exp_exponent_zero_witness :
    mod_exp (-7) 0 5 = .ok 1 ∧ (1 : Int) % 5 = 1 ∧ Int.tmod 1 5 = 1 ∧
      mod_exp (-7) 0 5 = .ok (power (-7) 0 % 5) :=
  mod_exp_exponent_zero (-7) 5 (by decide)

/-- C14, the claim as stated fails: with modulus `2^63 - 1`, base `2^32` (below the
modulus) and exponent 2, the product `base * base` is `2^64`, outside the 64-bit signed
range, and the 64-bit `mod_exp` returns 0 while `base^2 mod m` is 2. -/
theorem product_overflows_large_modulus :
    (1 : Int) < LLONG_MAX ∧ (4294967296 : Int) < LLONG_MAX ∧
    mod_exp64 4294967296 2 LLONG_MAX
      = .ok ⟨0, 2, [18446744073709551616, 0, 0], [0, 0, 0]⟩ ∧
    LLONG_MAX < (18446744073709551616 : Int) ∧
    power 4294967296 2 % LLONG_MAX = 2 := by
  decide

/-- C14 (amended): on 64-bit `long long` with wrap-around, for every modulus m with
1 < m <= 3037000500, every base with 0 <= base < m and every exponent >= 0, every product
`result * base` and `base * base` computed by `mod_exp` stays within the 64-bit signed
range, and the 64-bit `mod_exp` returns `base^exponent mod m`. -/
theorem mod_exp64_small_modulus (base exp m : Int) (hm : 1 < m) (hm2 : m ≤ 3037000500)
    (hb : 0 ≤ base) (hb2 : base < m) (he : 0 ≤ exp) :
    ∃ run, mod_exp64 base exp m = .ok run ∧
      (∀ x ∈ run.products, LLONG_MIN ≤ x ∧ x ≤ LLONG_MAX) ∧
      run.result = power base exp.toNat % m ∧ (exp.toNat : Int) = exp := by
  obtain ⟨run, h64, hid, hps, -⟩ :=
    run_loop_wrap64 m (by omega) hm2 exp.toNat 1 base exp (le_refl _) (by omega) (by omega)
      hb (by omega)
  refine ⟨run, h64, ?_, ?_, Int.toNat_of_nonneg he⟩
  · intro x hx
    have := hps x hx
    exact ⟨by unfold LLONG_MIN; omega, this.2⟩
  · have h1 := run_loop_result m (by omega) exp.toNat 1 base exp
    rw [hid] at h1
    have h2 : mod_exp_loop m exp.toNat 1 base exp = .ok (base ^ exp.toNat % m) :=
      mod_exp_eq base exp m hb hm
    rw [h2] at h1
    rw [power_eq_pow]
    exact Except.ok.inj h1

theorem mod_exp64_small_modulus_witness :
    ∃ run, mod_exp64 4 13 497 = .ok run ∧
      (∀ x ∈ run.products, LLONG_MIN ≤ x ∧ x ≤ LLONG_MAX) ∧
      run.result = power 4 (13 : Int).toNat % 497 ∧ (((13 : Int).toNat : Nat) : Int) = 13 :=
  mod_exp64_small_modulus 4 13 497 (by decide) (by decide) (by decide) (by decide) (by decide)

/-- C15 (termination and iteration count): `mod_exp` never stops for lack of fuel, in
exact and in 64-bit arithmetic, and with a modulus of 1 or more (the precondition of the
spec; a remainder by 0 and `LLONG_MIN % -1` are undefined) it returns for every integer
exponent and every base; the loop body runs `floor(log2(exponent)) + 1` times, the bit
length of the exponent, when exponent > 0 and not at all when exponent <= 0, with one or
two products per run of the body, so at most twice the bit length in all.  The same
counts hold on 64-bit arithmetic. -/
theorem mod_exp_iterations (base exp m : Int) :
    mod_exp base exp m ≠ .error .outOfFuel ∧
    mod_exp64 base exp m ≠ .error .outOfFuel ∧
    mod_exp64 LLONG_MIN 1 (-1) = .error .remOverflow ∧
    (1 ≤ m →
      ∃ run, mod_exp_run base exp m = .ok run ∧ mod_exp base exp m = .ok run.result ∧
        run.iterations = (if 0 < exp then Nat.log2 exp.toNat + 1 else 0) ∧
        (0 < exp → 2 ^ (run.iterations - 1) ≤ exp.toNat ∧ exp.toNat < 2 ^ run.iterations) ∧
        run.products.length ≤ 2 * run.iterations ∧
        ∃ run64, mod_exp64 base exp m = .ok run64 ∧ run64.iterations = run.iterations ∧
          run64.products.length ≤ 2 * run64.iterations) := by
  refine ⟨mod_exp_loop_fuel m exp.toNat 1 base exp (le_refl _),
    run_loop_fuel wrap64 m exp.toNat 1 base exp (le_refl _), by decide, fun hm => ?_⟩
  have hm0 : 0 < m := by omega
  obtain ⟨run, hrun, hit, -, hhi, -⟩ :=
    run_loop_count id m hm0 exp.toNat 1 base exp (le_refl _)
  obtain ⟨run64, hrun64, hit64, -, hhi64, -⟩ :=
    run_loop_count wrap64 m hm0 exp.toNat 1 base exp (le_refl _)
  refine ⟨run, hrun, ?_, hit, ?_, hhi, run64, hrun64, by rw [hit, hit64], hhi64⟩
  · have h := run_loop_result m hm0 exp.toNat 1 base exp
    rw [hrun] at h
    exact h.symm
  · intro hpos
    have hne : exp.toNat ≠ 0 := by omega
    rw [hit, if_pos hpos, Nat.add_sub_cancel]
    exact ⟨Nat.log2_self_le hne, Nat.lt_log2_self⟩

theorem mod_exp_iterations_witness :
    ∃ run, mod_exp_run 4 13 497 = .ok run ∧ mod_exp 4 13 497 = .ok run.result ∧
      run.iterations = (if (0 : Int) < 13 then Nat.log2 (13 : Int).toNat + 1 else 0) ∧
      ((0 : Int) < 13 → 2 ^ (run.iterations - 1) ≤ (13 : Int).toNat ∧
        (13 : Int).toNat < 2 ^ run.iterations) ∧
      run.products.length ≤ 2 * run.iterations ∧
      ∃ run64, mod_exp64 4 13 497 = .ok run64 ∧ run64.iterations = run.iterations ∧
        run64.products.length ≤ 2 * run64.iterations :=
  (mod_exp_iterations 4 13 497).2.2.2 (by decide)

/-- C16 (safe input range under 64-bit arithmetic): on 64-bit `long long` with
wrap-around, for every modulus m with 1 <= m <= 3037000500, every base with
0 <= base <= 3037000499 and every exponent >= 0, the 64-bit `mod_exp` returns, no product
exceeds `2^63 - 1` (nor falls below `-2^63`), every reduced value lies in `[0, m - 1]`,
and the run, its result included, is that of `mod_exp` in exact arithmetic. -/
theorem mod_exp64_safe_range (base exp m : Int) (hm : 1 ≤ m) (hm2 : m ≤ 3037000500)
    (hb : 0 ≤ base) (hb2 : base ≤ 3037000499) (he : 0 ≤ exp) :
    ∃ run, mod_exp64 base exp m = .ok run ∧
      (∀ x ∈ run.products, LLONG_MIN ≤ x ∧ x ≤ LLONG_MAX) ∧
      (∀ v ∈ run.reduced, 0 ≤ v ∧ v ≤ m - 1) ∧
      mod_exp base exp m = .ok run.result ∧
      mod_exp_run base exp m = .ok run ∧ (exp.toNat : Int) = exp := by
  obtain ⟨run, h64, hid, hps, hrs⟩ :=
    run_loop_wrap64 m (by omega) hm2 exp.toNat 1 base exp (le_refl _) (by omega) (by omega)
      hb hb2
  refine ⟨run, h64, ?_, hrs, ?_, hid, Int.toNat_of_nonneg he⟩
  · intro x hx
    have := hps x hx
    exact ⟨by unfold LLONG_MIN; omega, this.2⟩
  · have h := run_loop_result m (by omega) exp.toNat 1 base exp
    rw [hid] at h
    exact h.symm

theorem mod_exp64_safe_range_witness :
    ∃ run, mod_exp64 3037000499 3 3037000500 = .ok run ∧
      (∀ x ∈ run.products, LLONG_MIN ≤ x ∧ x ≤ LLONG_MAX) ∧
      (∀ v ∈ run.reduced, 0 ≤ v ∧ v ≤ 3037000500 - 1) ∧
      mod_exp 3037000499 3 3037000500 = .ok run.result ∧
      mod_exp_run 3037000499 3 3037000500 = .ok run ∧ (((3 : Int).toNat : Nat) : Int) = 3 :=
  mod_exp64_safe_range 3037000499 3 3037000500 (by decide) (by decide) (by decide)
    (by decide) (by decide)

/-- C17 (shared secrets agree on every input): in exact arithmetic, for every four
integers, `diffie_hellman` returns, its two shared secrets are equal, and the modulus of
each of its four `mod_exp` calls is the one left by the guard of lines 26-31, which is
above 1, so that none of them takes a remainder by zero. -/
theorem secrets_equal_on_every_input (p g private_a private_b : Int) :
    ∃ r, diffie_hellman p g private_a private_b = .ok r ∧
      r.shared_key_a = r.shared_key_b ∧
      fallback p g = .ok (r.p, r.g) ∧ 1 < r.p ∧
      mod_exp r.g private_a r.p = .ok r.public_a ∧
      mod_exp r.g private_b r.p = .ok r.public_b ∧
      mod_exp r.public_b private_a r.p = .ok r.shared_key_a ∧
      mod_exp r.public_a private_b r.p = .ok r.shared_key_b := by
  by_cases h : p ≤ 1 ∨ g ≤ 0
  · obtain ⟨r, hr, hp, hg, heq, h1, h2, h3, h4⟩ :=
      diffie_hellman_calls 23 2 private_a private_b (by decide) (by decide)
    refine ⟨r, by rw [diffie_hellman_fallback p g _ _ h, hr], heq, ?_, by omega, ?_, ?_, ?_, ?_⟩
    · rw [hp, hg]; exact fallback_of_invalid p g h
    · rw [hp, hg]; exact h1
    · rw [hp, hg]; exact h2
    · rw [hp]; exact h3
    · rw [hp]; exact h4
  · have hp1 : 1 < p := by omega
    have hg1 : 0 < g := by omega
    obtain ⟨r, hr, hp, hg, heq, h1, h2, h3, h4⟩ :=
      diffie_hellman_calls p g private_a private_b hp1 hg1
    refine ⟨r, hr, heq, ?_, by omega, ?_, ?_, ?_, ?_⟩
    · rw [hp, hg]; exact fallback_of_valid p g hp1 hg1
    · rw [hp, hg]; exact h1
    · rw [hp, hg]; exact h2
    · rw [hp]; exact h3
    · rw [hp]; exact h4

/-- C18 (nearest repair of an invalid field is the first candidate): in exact arithmetic
`find_closest_value(COMMON_PRIMES, p)` is 23 for every p <= 1 and
`find_closest_value(COMMON_GENERATORS, g)` is 2 for every g <= 0, 23 and 2 being the first
candidates; so a nearest-value search that returns another value was run on a valid
field, in particular in `read_params_from_file`. -/
theorem nearest_repair_is_first_candidate :
    first COMMON_PRIMES = .ok 23 ∧ first COMMON_GENERATORS = .ok 2 ∧
    (∀ p : Int, p ≤ 1 → find_closest_value COMMON_PRIMES p = .ok 23) ∧
    (∀ g : Int, g ≤ 0 → find_closest_value COMMON_GENERATORS g = .ok 2) ∧
    (∀ p P : Int, find_closest_value COMMON_PRIMES p = .ok P → P ≠ 23 → 1 < p) ∧
    (∀ g G : Int, find_closest_value COMMON_GENERATORS g = .ok G → G ≠ 2 → 0 < g) ∧
    (∀ v cur w : Params, read_params_from_file (some (.read v)) cur = .ok (true, w) →
      (w.p ≠ 23 → 1 < v.p) ∧ (w.g ≠ 2 → 0 < v.g)) := by
  have hP : ∀ p P : Int, find_closest_value COMMON_PRIMES p = .ok P → P ≠ 23 → 1 < p := by
    intro p P h hne
    by_contra hp
    rw [find_closest_prime_of_le_one p (by omega)] at h
    exact hne (Except.ok.inj h).symm
  have hG : ∀ g G : Int, find_closest_value COMMON_GENERATORS g = .ok G → G ≠ 2 → 0 < g := by
    intro g G h hne
    by_contra hg
    rw [find_closest_generator_of_nonpos g (by omega)] at h
    exact hne (Except.ok.inj h).symm
  refine ⟨rfl, rfl, find_closest_prime_of_le_one, find_closest_generator_of_nonpos, hP, hG, ?_⟩
  intro v cur w h
  by_cases hv : v.valid
  · exact ⟨fun _ => hv.1, fun _ => hv.2.1⟩
  · obtain ⟨P, G, -, -, hPeq, hGeq, hr⟩ := repair_of_invalid v hv
    rw [read_params_read v cur _ hr] at h
    have hw : w = ⟨P, G, max 1 v.private_a, max 1 v.private_b⟩ :=
      (congrArg Prod.snd (Except.ok.inj h)).symm
    subst hw
    exact ⟨fun hne => hP v.p P hPeq hne, fun hne => hG v.g G hGeq hne⟩

theorem nearest_repair_is_first_candidate_witness :
    find_closest_value COMMON_PRIMES (-4) = .ok 23 ∧
    find_closest_value COMMON_GENERATORS 0 = .ok 2 ∧
    read_params_from_file (some (.read ⟨50, -1, 6, 15⟩)) ⟨0, 0, 0, 0⟩
      = .ok (true, ⟨47, 2, 6, 15⟩) ∧ (1 : Int) < 50 :=
  have h : read_params_from_file (some (.read ⟨50, -1, 6, 15⟩)) ⟨0, 0, 0, 0⟩
      = .ok (true, ⟨47, 2, 6, 15⟩) := by decide
  ⟨nearest_repair_is_first_candidate.2.2.1 (-4) (by decide),
    nearest_repair_is_first_candidate.2.2.2.1 0 (by decide), h,
    (nearest_repair_is_first_candidate.2.2.2.2.2.2 _ _ _ h).1 (by decide)⟩


/-! ## Claims on the 64-bit program -/

set_option maxRecDepth 4000

theorem first_nearest_of_find (candidates : List Int) (input r : Int)
    (h : find_closest_value candidates input = .ok r) (hne : candidates ≠ []) :
    FirstNearest candidates input r := by
  obtain ⟨pre, r1, post, hl, hr, hmin, hpre⟩ := find_closest_value_spec candidates input hne
  rw [h] at hr
  have : r = r1 := Except.ok.inj hr
  subst this
  exact ⟨pre, post, hl, hmin, hpre⟩

/-- C1, the claim as stated fails on 64-bit `long long`: with (p, g, privateA, privateB) =
(3037000501, 3037000500, 2, 3), all four valid, the products overflow and `diffie_hellman`
computes two different shared secrets. -/
theorem secrets_differ_on_overflow :
    ((1 : Int) < 3037000501 ∧ (0 : Int) < 3037000500 ∧ (0 : Int) < 2 ∧ (0 : Int) < 3) ∧
    diffie_hellman64 3037000501 3037000500 2 3
      = .ok ⟨3037000501, 3037000500, -2746052118, -290948383, 2761835477, -2145021545⟩ ∧
    (2761835477 : Int) ≠ -2145021545 := by
  decide

/-- C1 (amended): on 64-bit `long long` with wrap-around, for 1 < p <= 3037000500,
0 < g <= 3037000499 and positive private keys, `diffie_hellman` returns and its two shared
secrets are equal, both `g^(privateA*privateB) mod p`; they are the values of
`mod_exp(mod_exp(g, b, p), a, p)` and of `mod_exp(mod_exp(g, a, p), b, p)`. -/
theorem shared_secrets_agree64 (p g private_a private_b : Int)
    (hp : 1 < p) (hp2 : p ≤ 3037000500) (hg : 0 < g) (hg2 : g ≤ 3037000499)
    (ha : 0 < private_a) (hb : 0 < private_b) :
    ∃ (r : Exchange) (pa pb sa sb : Run),
      diffie_hellman64 p g private_a private_b = .ok r ∧
      r.shared_key_a = r.shared_key_b ∧
      r.shared_key_a = power g (private_a * private_b).toNat % p ∧
      mod_exp64 g private_a p = .ok pa ∧ mod_exp64 g private_b p = .ok pb ∧
      mod_exp64 pb.result private_a p = .ok sa ∧
      mod_exp64 pa.result private_b p = .ok sb ∧
      sa.result = r.shared_key_a ∧ sb.result = r.shared_key_b := by
  obtain ⟨pa, pb, sa, sb, hpa, hpb, hsa, hsb, -, -, hsar, hsbr, hr⟩ :=
    diffie_hellman64_calls p g private_a private_b hp hp2 hg hg2
  refine ⟨_, pa, pb, sa, sb, hr, ?_, ?_, hpa, hpb, hsa, hsb, rfl, rfl⟩
  · show sa.result = sb.result
    rw [hsar, hsbr]
  · show sa.result = _
    rw [hsar, power_eq_pow, toNat_mul_of_pos _ _ ha hb]

theorem shared_secrets_agree64_witness :
    ∃ (r : Exchange) (pa pb sa sb : Run),
      diffie_hellman64 23 5 6 15 = .ok r ∧
      r.shared_key_a = r.shared_key_b ∧
      r.shared_key_a = power 5 ((6 : Int) * 15).toNat % 23 ∧
      mod_exp64 5 6 23 = .ok pa ∧ mod_exp64 5 15 23 = .ok pb ∧
      mod_exp64 pb.result 6 23 = .ok sa ∧
      mod_exp64 pa.result 15 23 = .ok sb ∧
      sa.result = r.shared_key_a ∧ sb.result = r.shared_key_b :=
  shared_secrets_agree64 23 5 6 15 (by decide) (by decide) (by decide) (by decide)
    (by decide) (by decide)

/-- C2, the claim as stated fails on 64-bit `long long`: base = 3037000500 >= 0,
exponent = 2 >= 0 and modulus = 3037000501 > 1, but `base * base` overflows and `mod_exp`
returns -2746052118, while `base^2 mod modulus` is 1. -/
theorem mod_exp_overflows :
    ((0 : Int) ≤ 3037000500 ∧ (0 : Int) ≤ 2 ∧ (1 : Int) < 3037000501) ∧
    (mod_exp64 3037000500 2 3037000501).map Run.result = .ok (-2746052118) ∧
    power 3037000500 2 % 3037000501 = 1 := by
  decide

/-- C2 (amended): on 64-bit `long long` with wrap-around, for every base with
0 <= base <= 3037000499, every exponent >= 0 and every modulus m with
1 < m <= 3037000500, `mod_exp` returns `base^exponent mod m`, the power being the exact
integer power by repeated multiplication. -/
theorem mod_exp64_correct (base exp m : Int) (hb : 0 ≤ base) (hb2 : base ≤ 3037000499)
    (he : 0 ≤ exp) (hm : 1 < m) (hm2 : m ≤ 3037000500) :
    ∃ run, mod_exp64 base exp m = .ok run ∧
      run.result = power base exp.toNat % m ∧ (exp.toNat : Int) = exp := by
  obtain ⟨run, hrun, hres, -⟩ := mod_exp64_eq base exp m hm hm2 hb hb2
  exact ⟨run, hrun, by rw [hres, power_eq_pow], Int.toNat_of_nonneg he⟩

theorem mod_exp64_correct_witness :
    (∃ run, mod_exp64 4 13 497 = .ok run ∧
      run.result = power 4 (13 : Int).toNat % 497 ∧ (((13 : Int).toNat : Nat) : Int) = 13) ∧
    (mod_exp64 4 13 497).map Run.result = .ok 445 :=
  ⟨mod_exp64_correct 4 13 497 (by decide) (by decide) (by decide) (by decide) (by decide),
    by decide⟩

/-- C3, the claim as stated fails on 64-bit `long long`: with (p, g, privateA, privateB) =
(5, 2^32, 2, 1), all four valid, `g * g` overflows and `diffie_hellman` computes
publicA = 0 and the shared secret of B = 0, while `g^2 mod 5` and `g^(2*1) mod 5` are 1. -/
theorem exchange_steps_overflow :
    ((1 : Int) < 5 ∧ (0 : Int) < 4294967296 ∧ (0 : Int) < 2 ∧ (0 : Int) < 1) ∧
    diffie_hellman64 5 4294967296 2 1 = .ok ⟨5, 4294967296, 0, 1, 1, 0⟩ ∧
    power 4294967296 (2 : Int).toNat % 5 = 1 ∧
    power 4294967296 ((2 : Int) * 1).toNat % 5 = 1 := by
  decide

/-- C3 (amended): on 64-bit `long long` with wrap-around, for 1 < p <= 3037000500,
0 < g <= 3037000499 and positive private keys, `diffie_hellman` computes with p and g, its
public keys are `g^privateA mod p` and `g^privateB mod p`, and each shared secret is
`g^(privateA*privateB) mod p`. -/
theorem diffie_hellman64_steps (p g private_a private_b : Int)
    (hp : 1 < p) (hp2 : p ≤ 3037000500) (hg : 0 < g) (hg2 : g ≤ 3037000499)
    (ha : 0 < private_a) (hb : 0 < private_b) :
    diffie_hellman64 p g private_a private_b = .ok
      { p := p, g := g,
        public_a := power g private_a.toNat % p,
        public_b := power g private_b.toNat % p,
        shared_key_a := power g (private_a * private_b).toNat % p,
        shared_key_b := power g (private_a * private_b).toNat % p } := by
  obtain ⟨pa, pb, sa, sb, -, -, -, -, hpar, hpbr, hsar, hsbr, hr⟩ :=
    diffie_hellman64_calls p g private_a private_b hp hp2 hg hg2
  rw [hr, hpar, hpbr, hsar, hsbr]
  simp only [power_eq_pow, toNat_mul_of_pos _ _ ha hb]

theorem diffie_hellman64_steps_witness :
    diffie_hellman64 23 5 6 15 = .ok
      { p := 23, g := 5,
        public_a := power 5 (6 : Int).toNat % 23,
        public_b := power 5 (15 : Int).toNat % 23,
        shared_key_a := power 5 ((6 : Int) * 15).toNat % 23,
        shared_key_b := power 5 ((6 : Int) * 15).toNat % 23 }
      ∧ power 5 (6 : Int).toNat % 23 = 8 ∧ power 5 (15 : Int).toNat % 23 = 19
      ∧ power 5 ((6 : Int) * 15).toNat % 23 = 2
      ∧ diffie_hellman64 23 5 6 15 = .ok ⟨23, 5, 8, 19, 2, 2⟩ :=
  ⟨diffie_hellman64_steps 23 5 6 15 (by decide) (by decide) (by decide) (by decide)
    (by decide) (by decide), by decide, by decide, by decide, by decide⟩

/-- C4, the claim as stated fails on 64-bit `long long`: for the value `-2^63` every
difference `candidate - value` overflows, and `find_closest_value(COMMON_PRIMES, -2^63)`
returns 521, the farthest candidate, while 23 is strictly nearer. -/
theorem nearest_overflows_at_llong_min :
    find_closest_value64 COMMON_PRIMES LLONG_MIN = .ok 521 ∧
    (23 : Int) ∈ COMMON_PRIMES ∧
    |(23 : Int) - LLONG_MIN| < |(521 : Int) - LLONG_MIN| ∧
    ¬ FirstNearest COMMON_PRIMES LLONG_MIN 521 := by
  have habs : |(23 : Int) - LLONG_MIN| < |(521 : Int) - LLONG_MIN| := by
    unfold LLONG_MIN; norm_num
  refine ⟨by decide, by decide, habs, ?_⟩
  rintro ⟨pre, post, -, hmin, -⟩
  have := hmin 23 (by decide)
  omega

/-- C4 (amended): on 64-bit `long long` with wrap-around, for every non-empty candidate
list and every value such that each difference `candidate - value` lies in
`[-(2^63 - 1), 2^63 - 1]`, `find_closest_value` returns an element of the list with
`|candidate - value|` minimal, and every element before the returned occurrence is
strictly farther from the value (the first of the nearest ones is returned). -/
theorem find_closest_value64_first_nearest (candidates : List Int) (input : Int)
    (hne : candidates ≠ [])
    (hrange : ∀ c ∈ candidates, -LLONG_MAX ≤ c - input ∧ c - input ≤ LLONG_MAX) :
    ∃ pre r post, candidates = pre ++ r :: post ∧
      find_closest_value64 candidates input = .ok r ∧
      (∀ c ∈ candidates, |r - input| ≤ |c - input|) ∧
      (∀ c ∈ pre, |r - input| < |c - input|) := by
  rw [find_closest_value64_eq candidates input hrange]
  exact find_closest_value_spec candidates input hne

theorem find_closest_value64_first_nearest_witness :
    (∃ pre r post, [2, 3, 5, 7] = pre ++ r :: post ∧
      find_closest_value64 [2, 3, 5, 7] 4 = .ok r ∧
      (∀ c ∈ [2, 3, 5, 7], |r - 4| ≤ |c - 4|) ∧
      (∀ c ∈ pre, |r - 4| < |c - 4|))
    ∧ find_closest_value64 [2, 3, 5, 7] 4 = .ok 3
    ∧ find_closest_value64 [23, 47, 97, 199, 307, 521] 50 = .ok 47 :=
  ⟨find_closest_value64_first_nearest [2, 3, 5, 7] 4 (by decide) (by
      intro c hc
      simp only [List.mem_cons, List.mem_singleton, List.not_mem_nil, or_false] at hc
      unfold LLONG_MAX
      omega),
    by decide, by decide⟩

/-- C6, the claim as stated fails: with (p, g, privateA, privateB) = (50, -1, 6, 15) read
from the file, p = 50 is valid and `read_params_from_file` returns p = 47, on 64-bit
`long long` as in exact arithmetic. -/
theorem valid_modulus_not_kept :
    read_params_from_file64 (some (.read ⟨50, -1, 6, 15⟩)) ⟨0, 0, 0, 0⟩
      = .ok (true, ⟨47, 2, 6, 15⟩) ∧
    read_params_from_file (some (.read ⟨50, -1, 6, 15⟩)) ⟨0, 0, 0, 0⟩
      = .ok (true, ⟨47, 2, 6, 15⟩) ∧
    (¬ ∀ (v cur w : Params), read_params_from_file64 (some (.read v)) cur = .ok (true, w) →
        (1 < v.p → w.p = v.p) ∧ (0 < v.g → w.g = v.g) ∧
        (0 < v.private_a → w.private_a = v.private_a) ∧
        (0 < v.private_b → w.private_b = v.private_b)) ∧
    ¬ ∀ (v cur w : Params), read_params_from_file (some (.read v)) cur = .ok (true, w) →
        (1 < v.p → w.p = v.p) ∧ (0 < v.g → w.g = v.g) ∧
        (0 < v.private_a → w.private_a = v.private_a) ∧
        (0 < v.private_b → w.private_b = v.private_b) := by
  have hev64 : read_params_from_file64 (some (.read ⟨50, -1, 6, 15⟩)) ⟨0, 0, 0, 0⟩
      = .ok (true, ⟨47, 2, 6, 15⟩) := by decide
  have hev : read_params_from_file (some (.read ⟨50, -1, 6, 15⟩)) ⟨0, 0, 0, 0⟩
      = .ok (true, ⟨47, 2, 6, 15⟩) := by decide
  refine ⟨hev64, hev, fun h => ?_, fun h => ?_⟩
  · have h1 := (h ⟨50, -1, 6, 15⟩ ⟨0, 0, 0, 0⟩ ⟨47, 2, 6, 15⟩ hev64).1 (by decide)
    exact absurd h1 (by decide)
  · have h1 := (h ⟨50, -1, 6, 15⟩ ⟨0, 0, 0, 0⟩ ⟨47, 2, 6, 15⟩ hev).1 (by decide)
    exact absurd h1 (by decide)

/-- C6 (amended): on 64-bit `long long` with wrap-around, for every tuple read from the
file `read_params_from_file` returns true; it leaves a valid private key unchanged, and
all four fields unchanged when all four are valid.  When some field is invalid, p and g
become elements of `COMMON_PRIMES` and `COMMON_GENERATORS`, so that p (or g) is unchanged
if and only if it is itself a candidate; the element is the nearest candidate, the first
on ties, whenever p >= -2^63 + 522 (resp. g >= -2^63 + 8), where no difference
`candidate - value` overflows. -/
theorem valid_fields_kept64 (v cur : Params) :
    ∃ w, read_params_from_file64 (some (.read v)) cur = .ok (true, w) ∧
      (0 < v.private_a → w.private_a = v.private_a) ∧
      (0 < v.private_b → w.private_b = v.private_b) ∧
      (v.valid → w = v) ∧
      (¬ v.valid →
        w.p ∈ COMMON_PRIMES ∧ w.g ∈ COMMON_GENERATORS ∧
        (w.p = v.p ↔ v.p ∈ COMMON_PRIMES) ∧ (w.g = v.g ↔ v.g ∈ COMMON_GENERATORS) ∧
        (LLONG_MIN + 522 ≤ v.p → v.p ≤ LLONG_MAX → FirstNearest COMMON_PRIMES v.p w.p) ∧
        (LLONG_MIN + 8 ≤ v.g → v.g ≤ LLONG_MAX →
          FirstNearest COMMON_GENERATORS v.g w.g)) := by
  by_cases h : v.valid
  · exact ⟨v, read_params64_read v cur v (repair64_of_valid v h), fun _ => rfl,
      fun _ => rfl, fun _ => rfl, fun hn => absurd h hn⟩
  · obtain ⟨P, G, hP, hG, hPeq, hGeq, hr⟩ := repair64_of_invalid v h
    refine ⟨_, read_params64_read v cur _ hr, ?_, ?_, fun hv => absurd hv h,
      fun _ => ⟨hP, hG, ⟨?_, ?_⟩, ⟨?_, ?_⟩, ?_, ?_⟩⟩
    · intro ha
      show max 1 v.private_a = v.private_a
      omega
    · intro hb
      show max 1 v.private_b = v.private_b
      omega
    · intro heq
      have : P = v.p := heq
      rw [← this]; exact hP
    · intro hmem
      have := find_closest_prime64_of_mem v.p hmem
      rw [hPeq] at this
      exact Except.ok.inj this
    · intro heq
      have : G = v.g := heq
      rw [← this]; exact hG
    · intro hmem
      have := find_closest_generator64_of_mem v.g hmem
      rw [hGeq] at this
      exact Except.ok.inj this
    · intro hlo hhi
      rw [find_closest_value64_eq _ _ (common_primes_in_range v.p hlo hhi)] at hPeq
      exact first_nearest_of_find _ _ _ hPeq (by decide)
    · intro hlo hhi
      rw [find_closest_value64_eq _ _ (common_generators_in_range v.g hlo hhi)] at hGeq
      exact first_nearest_of_find _ _ _ hGeq (by decide)

theorem valid_fields_kept64_witness :
    ∃ w, read_params_from_file64 (some (.read ⟨47, -1, 6, 0⟩)) ⟨0, 0, 0, 0⟩ = .ok (true, w) ∧
      w.private_a = 6 ∧ w.p = 47 ∧ w.g ∈ COMMON_GENERATORS ∧
      FirstNearest COMMON_GENERATORS (-1) w.g := by
  obtain ⟨w, hw, ha, -, -, hinv⟩ := valid_fields_kept64 ⟨47, -1, 6, 0⟩ ⟨0, 0, 0, 0⟩
  obtain ⟨-, hg, hp, -, -, hnear⟩ := hinv (by decide)
  exact ⟨w, hw, ha (by decide), hp.2 (by decide), hg, hnear (by decide) (by decide)⟩

/-- C8, the claim as stated fails: with (0, 7, 6, 15) read from the file, p <= 1 and the
exchange of the file-load path computes with generator 7, not 2, on 64-bit `long long`
as in exact arithmetic; and with p = -2^63 the 64-bit nearest-match search overflows and
the exchange computes with modulus 521, not 23. -/
theorem file_path_generator_not_first :
    (0 : Int) ≤ 1 ∧
    main_case2_64 (some (.read ⟨0, 7, 6, 15⟩)) ⟨0, 0, 0, 0⟩
      = .ok (some ⟨23, 7, 4, 14, 3, 3⟩) ∧
    main_case2 (some (.read ⟨0, 7, 6, 15⟩)) ⟨0, 0, 0, 0⟩
      = .ok (some ⟨23, 7, 4, 14, 3, 3⟩) ∧
    LLONG_MIN ≤ 1 ∧
    main_case2_64 (some (.read ⟨LLONG_MIN, 7, 6, 15⟩)) ⟨0, 0, 0, 0⟩
      = .ok (some ⟨521, 7, 424, 213, 106, 106⟩) := by
  decide

/-- C8 (amended): on 64-bit `long long` with wrap-around, on the file-load path, for every
tuple read with p <= 1 or g <= 0, `read_params_from_file` hands `diffie_hellman` the
results of its nearest-match searches, elements of `COMMON_PRIMES` and
`COMMON_GENERATORS`, which are valid, so the fallback of `diffie_hellman` does not fire
and the exchange computes with them.  They are the nearest candidates, the first on ties,
whenever p >= -2^63 + 522 (resp. g >= -2^63 + 8), where no difference overflows: the
modulus is then 23 when p <= 1 and the generator 2 when g <= 0. -/
theorem file_path_uses_nearest64 (v cur : Params) (h : v.p ≤ 1 ∨ v.g ≤ 0) :
    ∃ w r, read_params_from_file64 (some (.read v)) cur = .ok (true, w) ∧
      find_closest_value64 COMMON_PRIMES v.p = .ok w.p ∧
      find_closest_value64 COMMON_GENERATORS v.g = .ok w.g ∧
      w.p ∈ COMMON_PRIMES ∧ w.g ∈ COMMON_GENERATORS ∧
      fallback w.p w.g = .ok (w.p, w.g) ∧
      main_case2_64 (some (.read v)) cur = .ok (some r) ∧
      r.p = w.p ∧ r.g = w.g ∧
      (LLONG_MIN + 522 ≤ v.p → v.p ≤ LLONG_MAX → FirstNearest COMMON_PRIMES v.p r.p) ∧
      (LLONG_MIN + 8 ≤ v.g → v.g ≤ LLONG_MAX → FirstNearest COMMON_GENERATORS v.g r.g) ∧
      (LLONG_MIN + 522 ≤ v.p → v.p ≤ 1 → r.p = 23) ∧
      (LLONG_MIN + 8 ≤ v.g → v.g ≤ 0 → r.g = 2) := by
  have hinv : ¬ v.valid := by unfold Params.valid; omega
  obtain ⟨P, G, hP, hG, hPeq, hGeq, hr⟩ := repair64_of_invalid v hinv
  have h1 := common_prime_gt_one P hP
  have h2 := common_generator_pos G hG
  have hPb := common_prime_bounds P hP
  have hGb := common_generator_bounds G hG
  have hread := read_params64_read v cur _ hr
  obtain ⟨pa, pb, sa, sb, -, -, -, -, -, -, -, -, hdh⟩ :=
    diffie_hellman64_calls P G (max 1 v.private_a) (max 1 v.private_b) h1 (by omega) h2
      (by omega)
  have hP1 : ∀ hlo : LLONG_MIN + 522 ≤ v.p, ∀ hhi : v.p ≤ LLONG_MAX,
      find_closest_value COMMON_PRIMES v.p = .ok P := fun hlo hhi => by
    rw [← find_closest_value64_eq _ _ (common_primes_in_range v.p hlo hhi)]; exact hPeq
  have hG1 : ∀ hlo : LLONG_MIN + 8 ≤ v.g, ∀ hhi : v.g ≤ LLONG_MAX,
      find_closest_value COMMON_GENERATORS v.g = .ok G := fun hlo hhi => by
    rw [← find_closest_value64_eq _ _ (common_generators_in_range v.g hlo hhi)]; exact hGeq
  refine ⟨_, _, hread, hPeq, hGeq, hP, hG, fallback_of_valid _ _ h1 h2,
    main_case2_64_of_read _ cur _ _ hread hdh, rfl, rfl, ?_, ?_, ?_, ?_⟩
  · intro hlo hhi
    exact first_nearest_of_find _ _ _ (hP1 hlo hhi) (by decide)
  · intro hlo hhi
    exact first_nearest_of_find _ _ _ (hG1 hlo hhi) (by decide)
  · intro hlo hp
    have := hP1 hlo (by unfold LLONG_MAX; omega)
    rw [find_closest_prime_of_le_one v.p hp] at this
    exact (Except.ok.inj this).symm
  · intro hlo hg
    have := hG1 hlo (by unfold LLONG_MAX; omega)
    rw [find_closest_generator_of_nonpos v.g hg] at this
    exact (Except.ok.inj this).symm

theorem file_path_uses_nearest64_witness :
    ∃ w r, read_params_from_file64 (some (.read ⟨0, 6, 6, 15⟩)) ⟨0, 0, 0, 0⟩ = .ok (true, w) ∧
      w.p ∈ COMMON_PRIMES ∧ w.g ∈ COMMON_GENERATORS ∧
      main_case2_64 (some (.read ⟨0, 6, 6, 15⟩)) ⟨0, 0, 0, 0⟩ = .ok (some r) ∧
      r.p = 23 ∧ FirstNearest COMMON_GENERATORS 6 r.g := by
  obtain ⟨w, r, hw, -, -, hp, hg, -, hr, -, -, -, hnear, h23, -⟩ :=
    file_path_uses_nearest64 ⟨0, 6, 6, 15⟩ ⟨0, 0, 0, 0⟩ (by decide)
  exact ⟨w, r, hw, hp, hg, hr, h23 (by decide) (by decide), hnear (by decide) (by decide)⟩

end DHSolver
